import Mathlib

/-!
Verification development for the Math OCR pipeline
(`src/app/api/process-pdf/route.ts` and the `MathRenderer` component).

Strings are modelled as `List Char`.  Each JavaScript
`String.replace(regex, ...)` call with a global regex is embedded as a
left-to-right scanner that, at every position, attempts the unique match the
backtracking regex engine would produce there (for the patterns in this code
the greedy quantifier runs are over character classes that exclude the
character that must follow, so backtracking inside a run can never succeed
and a match at a position is the maximal-run decomposition), emits the
replacement, and resumes immediately after the matched span, exactly as
`String.replace` does.
-/

set_option maxHeartbeats 1600000
set_option maxRecDepth 2000
set_option linter.unusedVariables false

namespace MathOcr

/-! ### Character classes of the regular expressions -/

/-- Class `[a-zA-Z0-9]` used by the exponent rules. -/
def isAlnumCh (c : Char) : Bool := c.isAlpha || c.isDigit

/-- JavaScript `\s` (the whitespace characters relevant here). -/
def isWs (c : Char) : Bool :=
  c = ' ' || c = '\t' || c = '\n' || c = '\r' || c = '\x0b' || c = '\x0c'

/-- Class `[a-zA-Z0-9+\-*/^().\s]` of the equation-detection pattern.
Note that it contains neither `=` nor `$` nor braces. -/
def isEqClassCh (c : Char) : Bool :=
  c.isAlpha || c.isDigit || c = '+' || c = '-' || c = '*' || c = '/' ||
  c = '^' || c = '(' || c = ')' || c = '.' || isWs c

/-- Operator test `/[+\-*\/^=]/` of the equation callback. -/
def isOpCh (c : Char) : Bool :=
  c = '+' || c = '-' || c = '*' || c = '/' || c = '^' || c = '='

/-- Negated single-character class such as `[^}]` or `[^)]`. -/
def isNotCh (d : Char) (c : Char) : Bool := c != d

/-! ### Small list facts used for termination and decompositions -/

theorem dropWhile_len_le (p : Char → Bool) (l : List Char) :
    (l.dropWhile p).length ≤ l.length := by
  induction l with
  | nil => simp
  | cons c rest ih =>
    by_cases h : p c
    · rw [List.dropWhile_cons_of_pos h]
      simp only [List.length_cons]
      omega
    · rw [List.dropWhile_cons_of_neg h]

theorem tail_len_le (l : List Char) : l.tail.length ≤ l.length := by
  cases l <;> simp

theorem takeWhile_all (p : Char → Bool) (l : List Char) :
    ∀ c ∈ l.takeWhile p, p c = true := by
  intro c h
  exact List.mem_takeWhile_imp h

theorem mem_of_mem_takeWhile {p : Char → Bool} {l : List Char} {c : Char}
    (h : c ∈ l.takeWhile p) : c ∈ l := by
  induction l with
  | nil => simp at h
  | cons a rest ih =>
    rw [List.takeWhile_cons] at h
    by_cases hp : p a
    · simp only [hp, if_true, List.mem_cons] at h
      rcases h with h | h
      · simp [h]
      · exact List.mem_cons_of_mem a (ih h)
    · simp [hp] at h

theorem mem_of_mem_dropWhile {p : Char → Bool} {l : List Char} {c : Char}
    (h : c ∈ l.dropWhile p) : c ∈ l := by
  induction l with
  | nil => simp at h
  | cons a rest ih =>
    by_cases hp : p a
    · rw [List.dropWhile_cons_of_pos hp] at h
      exact List.mem_cons_of_mem a (ih h)
    · rw [List.dropWhile_cons_of_neg hp] at h
      exact h

/-- Splitting a list at the first character failing `p`, given the shape of
the remainder. -/
theorem takeWhile_dropWhile_eq (p : Char → Bool) (l : List Char) :
    l.takeWhile p ++ l.dropWhile p = l :=
  List.takeWhile_append_dropWhile p l

/-! ### Rule 1: fractions, `/(\d+)\/(\d+)/g → \frac{$1}{$2}` -/

/-- Scanner for the fraction rule.  At a digit it takes the maximal digit
run; the run must be followed by `/` and at least one further digit for the
regex to match there (backtracking inside the run cannot succeed because a
shortened run is followed by a digit, never by `/`). -/
def fracScan (s : List Char) : List Char :=
  match s with
  | [] => []
  | c :: rest =>
    if c.isDigit then
      if (rest.dropWhile Char.isDigit).head? = some '/' then
        if (((rest.dropWhile Char.isDigit).tail).takeWhile Char.isDigit).isEmpty then
          c :: rest.takeWhile Char.isDigit ++ '/' ::
            fracScan ((rest.dropWhile Char.isDigit).tail)
        else
          '\\' :: 'f' :: 'r' :: 'a' :: 'c' :: '\x7b' ::
            (c :: rest.takeWhile Char.isDigit) ++ '\x7d' :: '\x7b' ::
            ((rest.dropWhile Char.isDigit).tail).takeWhile Char.isDigit ++ '\x7d' ::
            fracScan ((((rest.dropWhile Char.isDigit).tail)).dropWhile Char.isDigit)
      else c :: rest.takeWhile Char.isDigit ++ fracScan (rest.dropWhile Char.isDigit)
    else c :: fracScan rest
termination_by s.length
decreasing_by
  all_goals simp only [List.length_cons]
  · have h1 := dropWhile_len_le Char.isDigit rest
    have h2 := tail_len_le (rest.dropWhile Char.isDigit)
    omega
  · have h1 := dropWhile_len_le Char.isDigit rest
    have h2 := tail_len_le (rest.dropWhile Char.isDigit)
    have h3 := dropWhile_len_le Char.isDigit ((rest.dropWhile Char.isDigit).tail)
    omega
  · have h1 := dropWhile_len_le Char.isDigit rest
    omega
  · omega

/-! ### Rule 2a: exponents, `/([a-zA-Z0-9]+)\^(\d+)/g → $1^{$2}` -/

/-- Scanner for the first exponent rewrite. -/
def expScan (s : List Char) : List Char :=
  match s with
  | [] => []
  | c :: rest =>
    if isAlnumCh c then
      if (rest.dropWhile isAlnumCh).head? = some '^' then
        if (((rest.dropWhile isAlnumCh).tail).takeWhile Char.isDigit).isEmpty then
          c :: rest.takeWhile isAlnumCh ++ '^' ::
            expScan ((rest.dropWhile isAlnumCh).tail)
        else
          c :: rest.takeWhile isAlnumCh ++ '^' :: '\x7b' ::
            ((rest.dropWhile isAlnumCh).tail).takeWhile Char.isDigit ++ '\x7d' ::
            expScan (((rest.dropWhile isAlnumCh).tail).dropWhile Char.isDigit)
      else c :: rest.takeWhile isAlnumCh ++ expScan (rest.dropWhile isAlnumCh)
    else c :: expScan rest
termination_by s.length
decreasing_by
  all_goals simp only [List.length_cons]
  · have h1 := dropWhile_len_le isAlnumCh rest
    have h2 := tail_len_le (rest.dropWhile isAlnumCh)
    omega
  · have h1 := dropWhile_len_le isAlnumCh rest
    have h2 := tail_len_le (rest.dropWhile isAlnumCh)
    have h3 := dropWhile_len_le Char.isDigit ((rest.dropWhile isAlnumCh).tail)
    omega
  · have h1 := dropWhile_len_le isAlnumCh rest
    omega
  · omega

/-! ### Rule 2b: brace normalisation, `/([a-zA-Z0-9]+)\^{([^}]+)}/g → $1^{$2}` -/

/-- Scanner for the second exponent rewrite.  Its replacement text is
exactly the matched text, so the function is the identity (proved below). -/
def expBrace (s : List Char) : List Char :=
  match s with
  | [] => []
  | c :: rest =>
    if isAlnumCh c then
      if (rest.dropWhile isAlnumCh).head? = some '^' ∧
         ((rest.dropWhile isAlnumCh).tail).head? = some '\x7b' then
        if (((rest.dropWhile isAlnumCh).tail.tail).dropWhile (isNotCh '\x7d')).head? =
             some '\x7d' ∧
           ¬ (((rest.dropWhile isAlnumCh).tail.tail).takeWhile (isNotCh '\x7d')).isEmpty then
          c :: rest.takeWhile isAlnumCh ++ '^' :: '\x7b' ::
            ((rest.dropWhile isAlnumCh).tail.tail).takeWhile (isNotCh '\x7d') ++ '\x7d' ::
            expBrace ((((rest.dropWhile isAlnumCh).tail.tail).dropWhile (isNotCh '\x7d')).tail)
        else
          c :: rest.takeWhile isAlnumCh ++ '^' :: '\x7b' ::
            expBrace ((rest.dropWhile isAlnumCh).tail.tail)
      else c :: rest.takeWhile isAlnumCh ++ expBrace (rest.dropWhile isAlnumCh)
    else c :: expBrace rest
termination_by s.length
decreasing_by
  all_goals simp only [List.length_cons]
  · have h1 := dropWhile_len_le isAlnumCh rest
    have h2 := tail_len_le (rest.dropWhile isAlnumCh)
    have h3 := tail_len_le ((rest.dropWhile isAlnumCh).tail)
    have h4 := dropWhile_len_le (isNotCh '\x7d') ((rest.dropWhile isAlnumCh).tail.tail)
    have h5 := tail_len_le (((rest.dropWhile isAlnumCh).tail.tail).dropWhile (isNotCh '\x7d'))
    omega
  · have h1 := dropWhile_len_le isAlnumCh rest
    have h2 := tail_len_le (rest.dropWhile isAlnumCh)
    have h3 := tail_len_le ((rest.dropWhile isAlnumCh).tail)
    omega
  · have h1 := dropWhile_len_le isAlnumCh rest
    omega
  · omega

/-! ### Rule 3: square roots -/

/-- Scanner for `/√\(([^)]+)\)/g → \sqrt{$1}`.  When the pattern fails at a
`√` the regex engine moves one position to the right, so scanning simply
resumes on the remaining characters. -/
def sqrtParenScan (s : List Char) : List Char :=
  match s with
  | [] => []
  | c :: rest =>
    if c = '√' ∧ rest.head? = some '(' then
      if ((rest.tail.dropWhile (isNotCh ')')).head? = some ')') ∧
         ¬ (rest.tail.takeWhile (isNotCh ')')).isEmpty then
        '\\' :: 's' :: 'q' :: 'r' :: 't' :: '\x7b' ::
          rest.tail.takeWhile (isNotCh ')') ++ '\x7d' ::
          sqrtParenScan ((rest.tail.dropWhile (isNotCh ')')).tail)
      else '√' :: sqrtParenScan rest
    else c :: sqrtParenScan rest
termination_by s.length
decreasing_by
  all_goals simp only [List.length_cons]
  · have h1 := tail_len_le rest
    have h2 := dropWhile_len_le (isNotCh ')') rest.tail
    have h3 := tail_len_le (rest.tail.dropWhile (isNotCh ')'))
    omega
  · omega
  · omega

/-- Scanner for `/√(\d+)/g → \sqrt{$1}`. -/
def sqrtNumScan (s : List Char) : List Char :=
  match s with
  | [] => []
  | c :: rest =>
    if c = '√' ∧ ¬ (rest.takeWhile Char.isDigit).isEmpty then
      '\\' :: 's' :: 'q' :: 'r' :: 't' :: '\x7b' ::
        rest.takeWhile Char.isDigit ++ '\x7d' ::
        sqrtNumScan (rest.dropWhile Char.isDigit)
    else c :: sqrtNumScan rest
termination_by s.length
decreasing_by
  all_goals simp only [List.length_cons]
  · have h1 := dropWhile_len_le Char.isDigit rest
    omega
  · omega

/-! ### Rules 4 and 5: Greek letters and operator symbols -/

/-- Global replacement of every occurrence of the single character `k` by
the string `r` (embedding of `String.replace` with a one-character global
pattern, which is how each Greek letter and operator symbol is rewritten). -/
def replaceChar (k : Char) (r : List Char) : List Char → List Char
  | [] => []
  | c :: rest => (if c = k then r else [c]) ++ replaceChar k r rest

/-- The `greekLetters` table of the source, in object insertion order.
Each value is the LaTeX command that gets wrapped as `$cmd$`. -/
def greekLetters : List (Char × List Char) :=
  [('α', "\\alpha".data), ('β', "\\beta".data), ('γ', "\\gamma".data), ('δ', "\\delta".data),
   ('ε', "\\epsilon".data), ('ζ', "\\zeta".data), ('η', "\\eta".data), ('θ', "\\theta".data),
   ('ι', "\\iota".data), ('κ', "\\kappa".data), ('λ', "\\lambda".data), ('μ', "\\mu".data),
   ('ν', "\\nu".data), ('ξ', "\\xi".data), ('π', "\\pi".data), ('ρ', "\\rho".data),
   ('σ', "\\sigma".data), ('τ', "\\tau".data), ('υ', "\\upsilon".data), ('φ', "\\phi".data),
   ('χ', "\\chi".data), ('ψ', "\\psi".data), ('ω', "\\omega".data),
   ('Γ', "\\Gamma".data), ('Δ', "\\Delta".data), ('Θ', "\\Theta".data), ('Λ', "\\Lambda".data),
   ('Ξ', "\\Xi".data), ('Π', "\\Pi".data), ('Σ', "\\Sigma".data), ('Φ', "\\Phi".data),
   ('Ψ', "\\Psi".data), ('Ω', "\\Omega".data)]

/-- The eleven operator-symbol replacements of lines 43-53 of the route, in
source order. -/
def mathOperators : List (Char × List Char) :=
  [('≤', "\\leq".data), ('≥', "\\geq".data), ('≠', "\\neq".data), ('±', "\\pm".data),
   ('∞', "\\infty".data), ('∑', "\\sum".data), ('∫', "\\int".data), ('∂', "\\partial".data),
   ('∇', "\\nabla".data), ('×', "\\times".data), ('÷', "\\div".data)]

/-- Sequential application of a table of symbol replacements; each entry
`(k, cmd)` replaces every `k` by `$cmd$`. -/
def applyTable (table : List (Char × List Char)) (s : List Char) : List Char :=
  table.foldl (fun acc e => replaceChar e.1 ('$' :: e.2 ++ ['$']) acc) s

/-- The Greek-letter rule (lines 26-40 of the route). -/
def greekRule (s : List Char) : List Char := applyTable greekLetters s

/-- The operator-symbol rule (lines 43-53 of the route). -/
def operatorRule (s : List Char) : List Char := applyTable mathOperators s

/-! ### Rule 6: equation detection -/

/-- Leftmost match of the pattern
`/([a-zA-Z0-9+\-*\/^().\s]+=[a-zA-Z0-9+\-*\/^().\s]+)/g`.
Returns `(before, match, after)`.  Since `=` is not in the class, a match is
a maximal class run, one `=`, and a maximal class run; if the maximal run
from a position is not followed by `=` and a class character, no match can
start anywhere inside that run. -/
def eqFind (s : List Char) : Option (List Char × List Char × List Char) :=
  match s with
  | [] => none
  | c :: rest =>
    if isEqClassCh c then
      if (rest.dropWhile isEqClassCh).head? = some '=' then
        if (((rest.dropWhile isEqClassCh).tail).takeWhile isEqClassCh).isEmpty then
          (eqFind ((rest.dropWhile isEqClassCh).tail)).map
            (fun pr => (c :: rest.takeWhile isEqClassCh ++ '=' :: pr.1, pr.2.1, pr.2.2))
        else
          some ([], c :: rest.takeWhile isEqClassCh ++ '=' ::
                  ((rest.dropWhile isEqClassCh).tail).takeWhile isEqClassCh,
                ((rest.dropWhile isEqClassCh).tail).dropWhile isEqClassCh)
      else
        (eqFind (rest.dropWhile isEqClassCh)).map
          (fun pr => (c :: rest.takeWhile isEqClassCh ++ pr.1, pr.2.1, pr.2.2))
    else (eqFind rest).map (fun pr => (c :: pr.1, pr.2.1, pr.2.2))
termination_by s.length
decreasing_by
  all_goals simp only [List.length_cons]
  · have h1 := dropWhile_len_le isEqClassCh rest
    have h2 := tail_len_le (rest.dropWhile isEqClassCh)
    omega
  · have h1 := dropWhile_len_le isEqClassCh rest
    omega
  · omega

/-- JavaScript `String.trim` (leading and trailing whitespace removed). -/
def trimWs (s : List Char) : List Char :=
  ((s.dropWhile isWs).reverse.dropWhile isWs).reverse

/-- The replacement callback of the equation rule: skip matches already
containing `$`, wrap trimmed math-looking matches in `$$...$$`. -/
def eqCallback (m : List Char) : List Char :=
  if m.contains '$' then m
  else if m.any isOpCh && m.any Char.isDigit then
    '$' :: '$' :: trimWs m ++ ['$', '$']
  else m

/-- Soundness of `eqFind`: a reported match decomposes the input. -/
theorem eqFind_decomp (s : List Char) :
    ∀ pre m r, eqFind s = some (pre, m, r) → s = pre ++ m ++ r := by
  induction s using eqFind.induct with
  | case1 =>
    intro pre m r h
    simp [eqFind] at h
  | case2 c rest hc heq hemp ih =>
    intro pre m r hfind
    rw [eqFind, if_pos hc, if_pos heq, if_pos hemp] at hfind
    rcases hopt : eqFind ((rest.dropWhile isEqClassCh).tail) with _ | ⟨⟨p1, m1, r1⟩⟩
    · rw [hopt] at hfind
      simp at hfind
    · rw [hopt] at hfind
      simp only [Option.map_some', Option.some_inj, Prod.mk.injEq] at hfind
      obtain ⟨h1, h2, h3⟩ := hfind
      subst h1; subst h2; subst h3
      have hs2 := ih p1 m1 r1 hopt
      have hshape : rest.dropWhile isEqClassCh =
          '=' :: (rest.dropWhile isEqClassCh).tail := by
        cases hd : rest.dropWhile isEqClassCh with
        | nil => rw [hd] at heq; simp at heq
        | cons a t =>
          rw [hd] at heq
          simp at heq
          rw [heq]
          simp
      have hdec := takeWhile_dropWhile_eq isEqClassCh rest
      calc c :: rest
          = c :: (rest.takeWhile isEqClassCh ++ rest.dropWhile isEqClassCh) := by rw [hdec]
        _ = c :: rest.takeWhile isEqClassCh ++ '=' :: (rest.dropWhile isEqClassCh).tail := by
            rw [hshape]; simp
        _ = c :: rest.takeWhile isEqClassCh ++ '=' :: (p1 ++ m1 ++ r1) := by rw [← hs2]
        _ = (c :: rest.takeWhile isEqClassCh ++ '=' :: p1) ++ m1 ++ r1 := by simp
  | case3 c rest hc heq hemp =>
    intro pre m r hfind
    rw [eqFind, if_pos hc, if_pos heq, if_neg hemp] at hfind
    simp only [Option.some_inj, Prod.mk.injEq] at hfind
    obtain ⟨h1, h2, h3⟩ := hfind
    subst h1; subst h2; subst h3
    have hshape : rest.dropWhile isEqClassCh =
        '=' :: (rest.dropWhile isEqClassCh).tail := by
      cases hd : rest.dropWhile isEqClassCh with
      | nil => rw [hd] at heq; simp at heq
      | cons a t =>
        rw [hd] at heq
        simp at heq
        rw [heq]
        simp
    have hdec := takeWhile_dropWhile_eq isEqClassCh rest
    have hdec2 := takeWhile_dropWhile_eq isEqClassCh ((rest.dropWhile isEqClassCh).tail)
    calc c :: rest
        = c :: (rest.takeWhile isEqClassCh ++ rest.dropWhile isEqClassCh) := by rw [hdec]
      _ = c :: rest.takeWhile isEqClassCh ++ '=' :: (rest.dropWhile isEqClassCh).tail := by
          rw [hshape]; simp
      _ = c :: rest.takeWhile isEqClassCh ++ '=' ::
            (((rest.dropWhile isEqClassCh).tail).takeWhile isEqClassCh ++
             ((rest.dropWhile isEqClassCh).tail).dropWhile isEqClassCh) := by rw [hdec2]
      _ = [] ++ (c :: rest.takeWhile isEqClassCh ++ '=' ::
            ((rest.dropWhile isEqClassCh).tail).takeWhile isEqClassCh) ++
            ((rest.dropWhile isEqClassCh).tail).dropWhile isEqClassCh := by simp
  | case4 c rest hc hne ih =>
    intro pre m r hfind
    rw [eqFind, if_pos hc, if_neg hne] at hfind
    rcases hopt : eqFind (rest.dropWhile isEqClassCh) with _ | ⟨⟨p1, m1, r1⟩⟩
    · rw [hopt] at hfind
      simp at hfind
    · rw [hopt] at hfind
      simp only [Option.map_some', Option.some_inj, Prod.mk.injEq] at hfind
      obtain ⟨h1, h2, h3⟩ := hfind
      subst h1; subst h2; subst h3
      have hs2 := ih p1 m1 r1 hopt
      have hdec := takeWhile_dropWhile_eq isEqClassCh rest
      calc c :: rest
          = c :: (rest.takeWhile isEqClassCh ++ rest.dropWhile isEqClassCh) := by rw [hdec]
        _ = c :: (rest.takeWhile isEqClassCh ++ (p1 ++ m1 ++ r1)) := by rw [← hs2]
        _ = (c :: rest.takeWhile isEqClassCh ++ p1) ++ m1 ++ r1 := by simp
  | case5 c rest hc ih =>
    intro pre m r hfind
    rw [eqFind, if_neg hc] at hfind
    rcases hopt : eqFind rest with _ | ⟨⟨p1, m1, r1⟩⟩
    · rw [hopt] at hfind
      simp at hfind
    · rw [hopt] at hfind
      simp only [Option.map_some', Option.some_inj, Prod.mk.injEq] at hfind
      obtain ⟨h1, h2, h3⟩ := hfind
      subst h1; subst h2; subst h3
      have hs2 := ih p1 m1 r1 hopt
      rw [hs2]
      simp

/-- Shape of an `eqFind` match: a nonempty class run, a single `=`, and a
nonempty class run. -/
theorem eqFind_shape (s : List Char) :
    ∀ pre m r, eqFind s = some (pre, m, r) →
      ∃ r1 r2, m = r1 ++ '=' :: r2 ∧ r1 ≠ [] ∧ r2 ≠ [] ∧
        (∀ c ∈ r1, isEqClassCh c = true) ∧ (∀ c ∈ r2, isEqClassCh c = true) := by
  induction s using eqFind.induct with
  | case1 =>
    intro pre m r h
    simp [eqFind] at h
  | case2 c rest hc heq hemp ih =>
    intro pre m r hfind
    rw [eqFind, if_pos hc, if_pos heq, if_pos hemp] at hfind
    rcases hopt : eqFind ((rest.dropWhile isEqClassCh).tail) with _ | ⟨⟨p1, m1, r1⟩⟩
    · rw [hopt] at hfind
      simp at hfind
    · rw [hopt] at hfind
      simp only [Option.map_some', Option.some_inj, Prod.mk.injEq] at hfind
      obtain ⟨h1, h2, h3⟩ := hfind
      subst h1; subst h2; subst h3
      exact ih p1 m1 r1 hopt
  | case3 c rest hc heq hemp =>
    intro pre m r hfind
    rw [eqFind, if_pos hc, if_pos heq, if_neg hemp] at hfind
    simp only [Option.some_inj, Prod.mk.injEq] at hfind
    obtain ⟨h1, h2, h3⟩ := hfind
    subst h1; subst h2; subst h3
    refine ⟨c :: rest.takeWhile isEqClassCh,
      ((rest.dropWhile isEqClassCh).tail).takeWhile isEqClassCh, by simp, by simp, ?_, ?_, ?_⟩
    · intro hnil
      exact hemp (by simp [hnil])
    · intro x hx
      rcases List.mem_cons.mp hx with hx | hx
      · exact hx ▸ hc
      · exact takeWhile_all isEqClassCh rest x hx
    · intro x hx
      exact takeWhile_all isEqClassCh ((rest.dropWhile isEqClassCh).tail) x hx
  | case4 c rest hc hne ih =>
    intro pre m r hfind
    rw [eqFind, if_pos hc, if_neg hne] at hfind
    rcases hopt : eqFind (rest.dropWhile isEqClassCh) with _ | ⟨⟨p1, m1, r1⟩⟩
    · rw [hopt] at hfind
      simp at hfind
    · rw [hopt] at hfind
      simp only [Option.map_some', Option.some_inj, Prod.mk.injEq] at hfind
      obtain ⟨h1, h2, h3⟩ := hfind
      subst h1; subst h2; subst h3
      exact ih p1 m1 r1 hopt
  | case5 c rest hc ih =>
    intro pre m r hfind
    rw [eqFind, if_neg hc] at hfind
    rcases hopt : eqFind rest with _ | ⟨⟨p1, m1, r1⟩⟩
    · rw [hopt] at hfind
      simp at hfind
    · rw [hopt] at hfind
      simp only [Option.map_some', Option.some_inj, Prod.mk.injEq] at hfind
      obtain ⟨h1, h2, h3⟩ := hfind
      subst h1; subst h2; subst h3
      exact ih p1 m1 r1 hopt

/-- The remainder after a match is strictly shorter than the input. -/
theorem eqFind_rest_lt (s pre m r : List Char) (h : eqFind s = some (pre, m, r)) :
    r.length < s.length := by
  have hd := eqFind_decomp s pre m r h
  obtain ⟨r1, r2, hm, -, -, -, -⟩ := eqFind_shape s pre m r h
  rw [hd, hm]
  simp only [List.append_assoc, List.length_append, List.length_cons]
  omega

/-- The equation-detection rule (lines 56-65 of the route): repeatedly find
the leftmost match and substitute the callback result, continuing after the
match. -/
def eqScan (s : List Char) : List Char :=
  match hf : eqFind s with
  | none => s
  | some (pre, m, r) => pre ++ eqCallback m ++ eqScan r
termination_by s.length
decreasing_by
  exact eqFind_rest_lt s pre m r hf

/-- The full `detectMathPatterns` pipeline of the route, rules applied in
source order: fractions, exponents, brace normalisation, roots, Greek
letters, operator symbols, equation detection. -/
def detectMathPatterns (text : List Char) : List Char :=
  eqScan (operatorRule (greekRule
    (sqrtNumScan (sqrtParenScan (expBrace (expScan (fracScan text)))))))

/-- Unfolding of `eqScan` when no match exists. -/
theorem eqScan_none {s : List Char} (h : eqFind s = none) : eqScan s = s := by
  rw [eqScan]
  split
  · rfl
  · rename_i pre m r heq
    rw [h] at heq
    cases heq

/-- Unfolding of `eqScan` at a match. -/
theorem eqScan_some {s pre m r : List Char} (h : eqFind s = some (pre, m, r)) :
    eqScan s = pre ++ eqCallback m ++ eqScan r := by
  rw [eqScan]
  split
  · rename_i heq
    rw [h] at heq
    cases heq
  · rename_i pre1 m1 r1 heq
    rw [h] at heq
    injection heq with heq
    injection heq with h1 heq
    injection heq with h2 h3
    rw [h1, h2, h3]

/-! ### Fuelled evaluators

The scanners above are defined by well-founded recursion, which the kernel
cannot reduce on concrete inputs.  Each scanner therefore gets a mirror that
recurses structurally on a fuel counter, together with a proof that enough
fuel (the length of the input) reproduces the scanner.  All concrete
computations in the theorems below go through these mirrors. -/

def fracScanEv (fuel : Nat) (s : List Char) : List Char :=
  match fuel, s with
  | 0, s => s
  | _, [] => []
  | fuel+1, c :: rest =>
    if c.isDigit then
      if (rest.dropWhile Char.isDigit).head? = some '/' then
        if (((rest.dropWhile Char.isDigit).tail).takeWhile Char.isDigit).isEmpty then
          c :: rest.takeWhile Char.isDigit ++ '/' ::
            fracScanEv fuel ((rest.dropWhile Char.isDigit).tail)
        else
          '\\' :: 'f' :: 'r' :: 'a' :: 'c' :: '\x7b' ::
            (c :: rest.takeWhile Char.isDigit) ++ '\x7d' :: '\x7b' ::
            ((rest.dropWhile Char.isDigit).tail).takeWhile Char.isDigit ++ '\x7d' ::
            fracScanEv fuel ((((rest.dropWhile Char.isDigit).tail)).dropWhile Char.isDigit)
      else c :: rest.takeWhile Char.isDigit ++ fracScanEv fuel (rest.dropWhile Char.isDigit)
    else c :: fracScanEv fuel rest

theorem fracScanEv_eq (fuel : Nat) (s : List Char) (h : s.length ≤ fuel) :
    fracScanEv fuel s = fracScan s := by
  induction fuel generalizing s with
  | zero =>
    cases s with
    | nil => rw [fracScan]; rfl
    | cons c rest => simp at h
  | succ f ih =>
    cases s with
    | nil => rw [fracScan]; rfl
    | cons c rest =>
      simp only [List.length_cons] at h
      have hb1 := dropWhile_len_le Char.isDigit rest
      have hb2 := tail_len_le (rest.dropWhile Char.isDigit)
      have hb3 := dropWhile_len_le Char.isDigit ((rest.dropWhile Char.isDigit).tail)
      rw [fracScan]
      show (if c.isDigit then _ else _) = _
      by_cases h1 : c.isDigit
      · rw [if_pos h1, if_pos h1]
        by_cases h2 : (rest.dropWhile Char.isDigit).head? = some '/'
        · rw [if_pos h2, if_pos h2]
          by_cases h3 : (((rest.dropWhile Char.isDigit).tail).takeWhile Char.isDigit).isEmpty
          · rw [if_pos h3, if_pos h3, ih _ (by omega)]
          · rw [if_neg h3, if_neg h3, ih _ (by omega)]
        · rw [if_neg h2, if_neg h2, ih _ (by omega)]
      · rw [if_neg h1, if_neg h1, ih _ (by omega)]

def expScanEv (fuel : Nat) (s : List Char) : List Char :=
  match fuel, s with
  | 0, s => s
  | _, [] => []
  | fuel+1, c :: rest =>
    if isAlnumCh c then
      if (rest.dropWhile isAlnumCh).head? = some '^' then
        if (((rest.dropWhile isAlnumCh).tail).takeWhile Char.isDigit).isEmpty then
          c :: rest.takeWhile isAlnumCh ++ '^' ::
            expScanEv fuel ((rest.dropWhile isAlnumCh).tail)
        else
          c :: rest.takeWhile isAlnumCh ++ '^' :: '\x7b' ::
            ((rest.dropWhile isAlnumCh).tail).takeWhile Char.isDigit ++ '\x7d' ::
            expScanEv fuel (((rest.dropWhile isAlnumCh).tail).dropWhile Char.isDigit)
      else c :: rest.takeWhile isAlnumCh ++ expScanEv fuel (rest.dropWhile isAlnumCh)
    else c :: expScanEv fuel rest

theorem expScanEv_eq (fuel : Nat) (s : List Char) (h : s.length ≤ fuel) :
    expScanEv fuel s = expScan s := by
  induction fuel generalizing s with
  | zero =>
    cases s with
    | nil => rw [expScan]; rfl
    | cons c rest => simp at h
  | succ f ih =>
    cases s with
    | nil => rw [expScan]; rfl
    | cons c rest =>
      simp only [List.length_cons] at h
      have hb1 := dropWhile_len_le isAlnumCh rest
      have hb2 := tail_len_le (rest.dropWhile isAlnumCh)
      have hb3 := dropWhile_len_le Char.isDigit ((rest.dropWhile isAlnumCh).tail)
      rw [expScan]
      show (if isAlnumCh c then _ else _) = _
      by_cases h1 : isAlnumCh c
      · rw [if_pos h1, if_pos h1]
        by_cases h2 : (rest.dropWhile isAlnumCh).head? = some '^'
        · rw [if_pos h2, if_pos h2]
          by_cases h3 : (((rest.dropWhile isAlnumCh).tail).takeWhile Char.isDigit).isEmpty
          · rw [if_pos h3, if_pos h3, ih _ (by omega)]
          · rw [if_neg h3, if_neg h3, ih _ (by omega)]
        · rw [if_neg h2, if_neg h2, ih _ (by omega)]
      · rw [if_neg h1, if_neg h1, ih _ (by omega)]

def expBraceEv (fuel : Nat) (s : List Char) : List Char :=
  match fuel, s with
  | 0, s => s
  | _, [] => []
  | fuel+1, c :: rest =>
    if isAlnumCh c then
      if (rest.dropWhile isAlnumCh).head? = some '^' ∧
         ((rest.dropWhile isAlnumCh).tail).head? = some '\x7b' then
        if (((rest.dropWhile isAlnumCh).tail.tail).dropWhile (isNotCh '\x7d')).head? =
             some '\x7d' ∧
           ¬ (((rest.dropWhile isAlnumCh).tail.tail).takeWhile (isNotCh '\x7d')).isEmpty then
          c :: rest.takeWhile isAlnumCh ++ '^' :: '\x7b' ::
            ((rest.dropWhile isAlnumCh).tail.tail).takeWhile (isNotCh '\x7d') ++ '\x7d' ::
            expBraceEv fuel ((((rest.dropWhile isAlnumCh).tail.tail).dropWhile (isNotCh '\x7d')).tail)
        else
          c :: rest.takeWhile isAlnumCh ++ '^' :: '\x7b' ::
            expBraceEv fuel ((rest.dropWhile isAlnumCh).tail.tail)
      else c :: rest.takeWhile isAlnumCh ++ expBraceEv fuel (rest.dropWhile isAlnumCh)
    else c :: expBraceEv fuel rest

theorem expBraceEv_eq (fuel : Nat) (s : List Char) (h : s.length ≤ fuel) :
    expBraceEv fuel s = expBrace s := by
  induction fuel generalizing s with
  | zero =>
    cases s with
    | nil => rw [expBrace]; rfl
    | cons c rest => simp at h
  | succ f ih =>
    cases s with
    | nil => rw [expBrace]; rfl
    | cons c rest =>
      simp only [List.length_cons] at h
      have hb1 := dropWhile_len_le isAlnumCh rest
      have hb2 := tail_len_le (rest.dropWhile isAlnumCh)
      have hb3 := tail_len_le ((rest.dropWhile isAlnumCh).tail)
      have hb4 := dropWhile_len_le (isNotCh '\x7d') ((rest.dropWhile isAlnumCh).tail.tail)
      have hb5 := tail_len_le (((rest.dropWhile isAlnumCh).tail.tail).dropWhile (isNotCh '\x7d'))
      rw [expBrace]
      show (if isAlnumCh c then _ else _) = _
      by_cases h1 : isAlnumCh c
      · rw [if_pos h1, if_pos h1]
        by_cases h2 : (rest.dropWhile isAlnumCh).head? = some '^' ∧
            ((rest.dropWhile isAlnumCh).tail).head? = some '\x7b'
        · rw [if_pos h2, if_pos h2]
          by_cases h3 : (((rest.dropWhile isAlnumCh).tail.tail).dropWhile (isNotCh '\x7d')).head? =
              some '\x7d' ∧
              ¬ (((rest.dropWhile isAlnumCh).tail.tail).takeWhile (isNotCh '\x7d')).isEmpty
          · rw [if_pos h3, if_pos h3, ih _ (by omega)]
          · rw [if_neg h3, if_neg h3, ih _ (by omega)]
        · rw [if_neg h2, if_neg h2, ih _ (by omega)]
      · rw [if_neg h1, if_neg h1, ih _ (by omega)]

def sqrtParenScanEv (fuel : Nat) (s : List Char) : List Char :=
  match fuel, s with
  | 0, s => s
  | _, [] => []
  | fuel+1, c :: rest =>
    if c = '√' ∧ rest.head? = some '(' then
      if ((rest.tail.dropWhile (isNotCh ')')).head? = some ')') ∧
         ¬ (rest.tail.takeWhile (isNotCh ')')).isEmpty then
        '\\' :: 's' :: 'q' :: 'r' :: 't' :: '\x7b' ::
          rest.tail.takeWhile (isNotCh ')') ++ '\x7d' ::
          sqrtParenScanEv fuel ((rest.tail.dropWhile (isNotCh ')')).tail)
      else '√' :: sqrtParenScanEv fuel rest
    else c :: sqrtParenScanEv fuel rest

theorem sqrtParenScanEv_eq (fuel : Nat) (s : List Char) (h : s.length ≤ fuel) :
    sqrtParenScanEv fuel s = sqrtParenScan s := by
  induction fuel generalizing s with
  | zero =>
    cases s with
    | nil => rw [sqrtParenScan]; rfl
    | cons c rest => simp at h
  | succ f ih =>
    cases s with
    | nil => rw [sqrtParenScan]; rfl
    | cons c rest =>
      simp only [List.length_cons] at h
      have hb1 := tail_len_le rest
      have hb2 := dropWhile_len_le (isNotCh ')') rest.tail
      have hb3 := tail_len_le (rest.tail.dropWhile (isNotCh ')'))
      rw [sqrtParenScan]
      show (if _ then _ else _) = _
      by_cases h1 : c = '√' ∧ rest.head? = some '('
      · rw [if_pos h1, if_pos h1]
        by_cases h2 : ((rest.tail.dropWhile (isNotCh ')')).head? = some ')') ∧
            ¬ (rest.tail.takeWhile (isNotCh ')')).isEmpty
        · rw [if_pos h2, if_pos h2, ih _ (by omega)]
        · rw [if_neg h2, if_neg h2, ih _ (by omega)]
      · rw [if_neg h1, if_neg h1, ih _ (by omega)]

def sqrtNumScanEv (fuel : Nat) (s : List Char) : List Char :=
  match fuel, s with
  | 0, s => s
  | _, [] => []
  | fuel+1, c :: rest =>
    if c = '√' ∧ ¬ (rest.takeWhile Char.isDigit).isEmpty then
      '\\' :: 's' :: 'q' :: 'r' :: 't' :: '\x7b' ::
        rest.takeWhile Char.isDigit ++ '\x7d' ::
        sqrtNumScanEv fuel (rest.dropWhile Char.isDigit)
    else c :: sqrtNumScanEv fuel rest

theorem sqrtNumScanEv_eq (fuel : Nat) (s : List Char) (h : s.length ≤ fuel) :
    sqrtNumScanEv fuel s = sqrtNumScan s := by
  induction fuel generalizing s with
  | zero =>
    cases s with
    | nil => rw [sqrtNumScan]; rfl
    | cons c rest => simp at h
  | succ f ih =>
    cases s with
    | nil => rw [sqrtNumScan]; rfl
    | cons c rest =>
      simp only [List.length_cons] at h
      have hb1 := dropWhile_len_le Char.isDigit rest
      rw [sqrtNumScan]
      show (if _ then _ else _) = _
      by_cases h1 : c = '√' ∧ ¬ (rest.takeWhile Char.isDigit).isEmpty
      · rw [if_pos h1, if_pos h1, ih _ (by omega)]
      · rw [if_neg h1, if_neg h1, ih _ (by omega)]

def eqFindEv (fuel : Nat) (s : List Char) : Option (List Char × List Char × List Char) :=
  match fuel, s with
  | 0, _ => none
  | _, [] => none
  | fuel+1, c :: rest =>
    if isEqClassCh c then
      if (rest.dropWhile isEqClassCh).head? = some '=' then
        if (((rest.dropWhile isEqClassCh).tail).takeWhile isEqClassCh).isEmpty then
          (eqFindEv fuel ((rest.dropWhile isEqClassCh).tail)).map
            (fun pr => (c :: rest.takeWhile isEqClassCh ++ '=' :: pr.1, pr.2.1, pr.2.2))
        else
          some ([], c :: rest.takeWhile isEqClassCh ++ '=' ::
                  ((rest.dropWhile isEqClassCh).tail).takeWhile isEqClassCh,
                ((rest.dropWhile isEqClassCh).tail).dropWhile isEqClassCh)
      else
        (eqFindEv fuel (rest.dropWhile isEqClassCh)).map
          (fun pr => (c :: rest.takeWhile isEqClassCh ++ pr.1, pr.2.1, pr.2.2))
    else (eqFindEv fuel rest).map (fun pr => (c :: pr.1, pr.2.1, pr.2.2))

theorem eqFindEv_eq (fuel : Nat) (s : List Char) (h : s.length ≤ fuel) :
    eqFindEv fuel s = eqFind s := by
  induction fuel generalizing s with
  | zero =>
    cases s with
    | nil => rw [eqFind]; rfl
    | cons c rest => simp at h
  | succ f ih =>
    cases s with
    | nil => rw [eqFind]; rfl
    | cons c rest =>
      simp only [List.length_cons] at h
      have hb1 := dropWhile_len_le isEqClassCh rest
      have hb2 := tail_len_le (rest.dropWhile isEqClassCh)
      rw [eqFind]
      show (if isEqClassCh c then _ else _) = _
      by_cases h1 : isEqClassCh c
      · rw [if_pos h1, if_pos h1]
        by_cases h2 : (rest.dropWhile isEqClassCh).head? = some '='
        · rw [if_pos h2, if_pos h2]
          by_cases h3 : (((rest.dropWhile isEqClassCh).tail).takeWhile isEqClassCh).isEmpty
          · rw [if_pos h3, if_pos h3, ih _ (by omega)]
          · rw [if_neg h3, if_neg h3]
        · rw [if_neg h2, if_neg h2, ih _ (by omega)]
      · rw [if_neg h1, if_neg h1, ih _ (by omega)]

def eqScanEv (fuel : Nat) (s : List Char) : List Char :=
  match fuel with
  | 0 => s
  | fuel+1 =>
    match eqFindEv s.length s with
    | none => s
    | some (pre, m, r) => pre ++ eqCallback m ++ eqScanEv fuel r

theorem eqScanEv_eq (fuel : Nat) (s : List Char) (h : s.length ≤ fuel) :
    eqScanEv fuel s = eqScan s := by
  induction fuel generalizing s with
  | zero =>
    have hs : s = [] := by
      cases s with
      | nil => rfl
      | cons c rest => simp at h
    subst hs
    rw [eqScan_none (by rw [eqFind])]
    rfl
  | succ f ih =>
    show (match eqFindEv s.length s with
      | none => s
      | some (pre, m, r) => pre ++ eqCallback m ++ eqScanEv f r) = eqScan s
    rw [eqFindEv_eq s.length s (by omega)]
    rcases hf : eqFind s with _ | ⟨⟨p, m, r⟩⟩
    · rw [eqScan_none hf]
    · rw [eqScan_some hf]
      have hr := eqFind_rest_lt s p m r hf
      show p ++ eqCallback m ++ eqScanEv f r = p ++ eqCallback m ++ eqScan r
      rw [ih r (by omega)]

/-- Composite fuelled evaluator for the whole pipeline, with fuel chosen as
the length of each intermediate string. -/
def detectMathPatternsEv (s : List Char) : List Char :=
  let t1 := fracScanEv s.length s
  let t2 := expScanEv t1.length t1
  let t3 := expBraceEv t2.length t2
  let t4 := sqrtParenScanEv t3.length t3
  let t5 := sqrtNumScanEv t4.length t4
  let t6 := operatorRule (greekRule t5)
  eqScanEv t6.length t6

theorem detectMathPatternsEv_eq (s : List Char) :
    detectMathPatternsEv s = detectMathPatterns s := by
  rw [detectMathPatternsEv, detectMathPatterns]
  rw [fracScanEv_eq _ _ (le_refl _)]
  rw [expScanEv_eq _ _ (le_refl _)]
  rw [expBraceEv_eq _ _ (le_refl _)]
  rw [sqrtParenScanEv_eq _ _ (le_refl _)]
  rw [sqrtNumScanEv_eq _ _ (le_refl _)]
  rw [eqScanEv_eq _ _ (le_refl _)]

/-! ### Line Reconstructor (lines 109-124 of the route) -/

/-- A positioned text fragment: `str` is the item text, `y` the baseline
coordinate `item.transform[5]`. -/
structure Fragment where
  str : List Char
  y : Int

/-- The guard `if (lastY && Math.abs(item.transform[5] - lastY) > 5)` of the
route.  JavaScript truthiness makes `lastY === 0` falsy, so a previous
baseline of exactly `0` suppresses the break. -/
def lineBreakNeeded (lastY y : Int) : Bool :=
  lastY != 0 && decide ((y - lastY).natAbs > 5)

/-- The fragment fold of the route: optional break, then text, then a
space, with `lastY` updated to the fragment baseline (initially `0`). -/
def pageRawAux (lastY : Int) : List Fragment → List Char
  | [] => []
  | f :: rest =>
    (if lineBreakNeeded lastY f.y then ['\n'] else []) ++ f.str ++ [' '] ++ pageRawAux f.y rest

/-- Accumulated page text before whitespace cleanup. -/
def pageRaw (items : List Fragment) : List Char := pageRawAux 0 items

/-- `replace(/ +/g, ' ')`: collapse every run of spaces to a single
space. -/
def collapseSpacesAux (prevSpace : Bool) : List Char → List Char
  | [] => []
  | c :: rest =>
    if c = ' ' then
      (if prevSpace then [] else [' ']) ++ collapseSpacesAux true rest
    else c :: collapseSpacesAux false rest

def collapseSpaces (s : List Char) : List Char := collapseSpacesAux false s

/-- The reconstructed page text: accumulate, collapse space runs, trim. -/
def reconstructPage (items : List Fragment) : List Char :=
  trimWs (collapseSpaces (pageRaw items))

/-- Number of fragment boundaries at which the route inserts a break. -/
def breakCount (lastY : Int) : List Fragment → Nat
  | [] => 0
  | f :: rest => (if lineBreakNeeded lastY f.y then 1 else 0) + breakCount f.y rest

/-! ### Page Stream Driver (the `POST` handler) -/

/-- The four event shapes written to the SSE stream. -/
inductive StreamEvent
  | progress (msg : List Char)
  | page (pageNum : Nat) (content : List Char)
  | complete (msg : List Char)
  | error (msg : List Char)
deriving DecidableEq

/-- A decoded document: the outcome of text extraction for each page in
page order.  `Except.ok` carries the fragments of `getTextContent`;
`Except.error` carries the message of the exception thrown by the awaited
`getPage`/`getTextContent` for that page, which the handler's catch block
turns into a terminal error event. -/
structure PdfDoc where
  pages : List (Except (List Char) (List Fragment))

/-- Per-page processing: reconstruct the text, then annotate it. -/
def processPage (frags : List Fragment) : List Char :=
  detectMathPatterns (reconstructPage frags)

/-- Decimal rendering of a page number for progress messages. -/
def natStr (n : Nat) : List Char := (Nat.repr n).data

/-- The page loop of the handler: per page one progress event, then the
awaited extraction; on success one page event and the next iteration, on
failure control reaches the catch block, which emits a terminal error
event and closes.  After the full loop the complete event is emitted. -/
def pageEvents (i n : Nat) : List (Except (List Char) (List Fragment)) → List StreamEvent
  | [] => [StreamEvent.complete "Processing complete!".data]
  | Except.error msg :: _ =>
      [StreamEvent.progress ("Processing page ".data ++ natStr i ++ " of ".data ++
          natStr n ++ "...".data),
        StreamEvent.error msg]
  | Except.ok frags :: rest =>
      StreamEvent.progress ("Processing page ".data ++ natStr i ++ " of ".data ++
          natStr n ++ "...".data)
        :: StreamEvent.page i (processPage frags)
        :: pageEvents (i + 1) n rest

/-- The event sequence produced by the `POST` handler.  The request either
carries no file (`none`), a file that fails to decode (`some (error msg)`,
the caught exception), or a document that decodes into per-page extraction
outcomes. -/
def post (req : Option (Except (List Char) PdfDoc)) : List StreamEvent :=
  match req with
  | none => [StreamEvent.error "No file provided".data]
  | some (Except.error msg) =>
      [StreamEvent.progress "Loading PDF...".data, StreamEvent.error msg]
  | some (Except.ok doc) =>
      StreamEvent.progress "Loading PDF...".data ::
      StreamEvent.progress ("Processing ".data ++ natStr doc.pages.length ++
        " pages...".data) ::
      pageEvents 1 doc.pages.length doc.pages

/-- Page numbers carried by page events, in emission order. -/
def pageNums (evts : List StreamEvent) : List Nat :=
  evts.filterMap (fun e =>
    match e with
    | StreamEvent.page n _ => some n
    | _ => none)

/-- Terminal events are `complete` and `error`. -/
def isTerminalEvent : StreamEvent → Bool
  | StreamEvent.complete _ => true
  | StreamEvent.error _ => true
  | _ => false

theorem pageEvents_pageNums (n : Nat) (ps : List (Except (List Char) (List Fragment))) :
    ∀ i, pageNums (pageEvents i n ps) =
      List.range' i (ps.takeWhile Except.isOk).length := by
  induction ps with
  | nil => intro i; rfl
  | cons p rest ih =>
    intro i
    cases p with
    | error msg => rfl
    | ok frags =>
      show pageNums (StreamEvent.progress _ :: StreamEvent.page i _ ::
        pageEvents (i+1) n rest) = _
      rw [pageNums, List.filterMap_cons, List.filterMap_cons]
      simp only []
      rw [List.takeWhile_cons_of_pos rfl, List.length_cons, List.range'_succ]
      exact congrArg (i :: ·) (ih (i + 1))

theorem pageEvents_oneTerminal (n : Nat) (ps : List (Except (List Char) (List Fragment))) :
    ∀ i, (pageEvents i n ps).countP (fun e => isTerminalEvent e) = 1 := by
  induction ps with
  | nil => intro i; rfl
  | cons p rest ih =>
    intro i
    cases p with
    | error msg => rfl
    | ok frags =>
      show List.countP _ (StreamEvent.progress _ :: StreamEvent.page i _ ::
        pageEvents (i+1) n rest) = 1
      rw [List.countP_cons, List.countP_cons, ih (i + 1)]
      rfl

theorem pageEvents_ne_nil (i n : Nat) (ps : List (Except (List Char) (List Fragment))) :
    pageEvents i n ps ≠ [] := by
  cases ps with
  | nil => simp [pageEvents]
  | cons p rest =>
    cases p with
    | error msg => simp [pageEvents]
    | ok frags => simp [pageEvents]

theorem getLast?_cons_cons_of_ne_nil {α : Type} (a b : α) {l : List α} (h : l ≠ []) :
    (a :: b :: l).getLast? = l.getLast? := by
  obtain ⟨x, t, rfl⟩ := List.exists_cons_of_ne_nil h
  rw [List.getLast?_cons_cons, List.getLast?_cons_cons]

theorem pageEvents_last (n : Nat) (ps : List (Except (List Char) (List Fragment))) :
    ∀ i, ∃ e, (pageEvents i n ps).getLast? = some e ∧ isTerminalEvent e = true := by
  induction ps with
  | nil => intro i; exact ⟨StreamEvent.complete "Processing complete!".data, rfl, rfl⟩
  | cons p rest ih =>
    intro i
    cases p with
    | error msg => exact ⟨StreamEvent.error msg, rfl, rfl⟩
    | ok frags =>
      obtain ⟨e, he, ht⟩ := ih (i + 1)
      refine ⟨e, ?_, ht⟩
      show (StreamEvent.progress _ :: StreamEvent.page i _ ::
        pageEvents (i+1) n rest).getLast? = some e
      rw [getLast?_cons_cons_of_ne_nil _ _ (pageEvents_ne_nil _ _ _)]
      exact he

theorem pageEvents_last_all_ok (n : Nat) :
    ∀ ps : List (Except (List Char) (List Fragment)),
    (∀ p ∈ ps, p.isOk = true) → ∀ i,
    (pageEvents i n ps).getLast? =
      some (StreamEvent.complete "Processing complete!".data) := by
  intro ps
  induction ps with
  | nil => intro h i; rfl
  | cons p rest ih =>
    intro h i
    cases p with
    | error msg =>
      have hx := h _ (List.mem_cons_self _ _)
      simp [Except.isOk, Except.toBool] at hx
    | ok frags =>
      have hrest : ∀ p ∈ rest, p.isOk = true := fun p hp => h p (List.mem_cons_of_mem _ hp)
      show (StreamEvent.progress _ :: StreamEvent.page i _ ::
        pageEvents (i+1) n rest).getLast? = _
      rw [getLast?_cons_cons_of_ne_nil _ _ (pageEvents_ne_nil _ _ _)]
      exact ih hrest (i + 1)

/-- Boundary count of the amended C3 claim: boundaries where the earlier
processed fragment has nonzero baseline and the baselines differ by more
than 5. -/
def boundaryCount : Int → List Fragment → Nat
  | _, [] => 0
  | lastY, f :: rest =>
    (if lastY ≠ 0 ∧ (f.y - lastY).natAbs > 5 then 1 else 0) + boundaryCount f.y rest

theorem lineBreakNeeded_iff (a b : Int) :
    lineBreakNeeded a b = true ↔ (a ≠ 0 ∧ (b - a).natAbs > 5) := by
  simp [lineBreakNeeded]

theorem count_pageRawAux (items : List Fragment) (h : ∀ f ∈ items, '\n' ∉ f.str) :
    ∀ lastY, List.count '\n' (pageRawAux lastY items) = boundaryCount lastY items := by
  induction items with
  | nil => intro lastY; rfl
  | cons f rest ih =>
    intro lastY
    rw [pageRawAux, boundaryCount]
    rw [List.count_append, List.count_append, List.count_append]
    have hf : List.count '\n' f.str = 0 :=
      List.count_eq_zero.mpr (h f (List.mem_cons_self f rest))
    have hrest : ∀ g ∈ rest, '\n' ∉ g.str := fun g hg => h g (List.mem_cons_of_mem f hg)
    rw [hf, ih hrest f.y]
    by_cases hb : lineBreakNeeded lastY f.y
    · rw [if_pos hb, if_pos ((lineBreakNeeded_iff lastY f.y).mp hb)]
      simp [List.count_cons]
    · rw [if_neg hb, if_neg (fun hx => hb ((lineBreakNeeded_iff lastY f.y).mpr hx))]
      simp [List.count_cons]

/-- C3 (amended): for fragments whose text contains no newline, a line
break is inserted in the accumulated page text exactly at the boundaries
where the previous processed fragment has a nonzero baseline and the
baselines differ by strictly more than 5; the number of break characters in
the accumulated text equals the number of such boundaries.  A previous
baseline of exactly 0 suppresses the break because of the JavaScript
truthiness guard `if (lastY && ...)`. -/
theorem claimC3 (items : List Fragment) (h : ∀ f ∈ items, '\n' ∉ f.str) :
    List.count '\n' (pageRaw items) = boundaryCount 0 items :=
  count_pageRawAux items h 0

/-- Counterexample to C3 as stated: two fragments with baselines 0 and 100
differ by more than 5 units, yet the reconstructed output contains no line
break, because the earlier baseline 0 is falsy in the guard. -/
theorem claimC3_counterexample :
    reconstructPage [⟨"a".data, 0⟩, ⟨"b".data, 100⟩] = "a b".data ∧
    List.count '\n' (reconstructPage [⟨"a".data, 0⟩, ⟨"b".data, 100⟩]) = 0 ∧
    ((100 : Int) - 0).natAbs > 5 := by
  decide

/-- Witness for the amended C3 theorem at a concrete fragment list. -/
theorem claimC3_witness :
    (∀ f ∈ ([⟨"ab".data, 10⟩, ⟨"cd".data, 100⟩, ⟨"ef".data, 103⟩] : List Fragment),
      '\n' ∉ f.str) ∧
    List.count '\n'
        (pageRaw [⟨"ab".data, 10⟩, ⟨"cd".data, 100⟩, ⟨"ef".data, 103⟩]) =
      boundaryCount 0 [⟨"ab".data, 10⟩, ⟨"cd".data, 100⟩, ⟨"ef".data, 103⟩] :=
  ⟨by decide, claimC3 _ (by decide)⟩


/-- C8: a request without a file produces exactly one event, the error
event with message `No file provided`, with no progress, page or complete
event. -/
theorem claimC8 : post none = [StreamEvent.error "No file provided".data] := rfl

/-- C9 (amended): for every document that decodes, the page events carry
exactly the numbers `1, 2, ..., k` in strictly increasing order, where `k`
counts the pages whose awaited extraction succeeds before the first
failure; the stream ends with exactly one terminal event (never both a
complete and an error); and when every page extraction succeeds the
terminal event is the complete event (so all `N` pages get their event).
The original claim fails when a mid-loop `getPage`/`getTextContent`
rejection reaches the catch block: pages `k+1..N` then get no page event. -/
theorem claimC9 (doc : PdfDoc) :
    pageNums (post (some (Except.ok doc))) =
      List.range' 1 (doc.pages.takeWhile Except.isOk).length ∧
    (post (some (Except.ok doc))).countP (fun e => isTerminalEvent e) = 1 ∧
    (∃ e, (post (some (Except.ok doc))).getLast? = some e ∧
      isTerminalEvent e = true) ∧
    ((∀ p ∈ doc.pages, p.isOk = true) →
      (post (some (Except.ok doc))).getLast? =
        some (StreamEvent.complete "Processing complete!".data)) := by
  refine ⟨?_, ?_, ?_, ?_⟩
  · show pageNums (StreamEvent.progress _ :: StreamEvent.progress _ ::
      pageEvents 1 doc.pages.length doc.pages) = _
    rw [pageNums, List.filterMap_cons, List.filterMap_cons]
    have h1 := pageEvents_pageNums doc.pages.length doc.pages 1
    rw [pageNums] at h1
    exact h1
  · show List.countP _ (StreamEvent.progress _ :: StreamEvent.progress _ ::
      pageEvents 1 doc.pages.length doc.pages) = 1
    rw [List.countP_cons, List.countP_cons,
      pageEvents_oneTerminal doc.pages.length doc.pages 1]
    rfl
  · obtain ⟨e, he, ht⟩ := pageEvents_last doc.pages.length doc.pages 1
    refine ⟨e, ?_, ht⟩
    show (StreamEvent.progress _ :: StreamEvent.progress _ ::
      pageEvents 1 doc.pages.length doc.pages).getLast? = some e
    rw [getLast?_cons_cons_of_ne_nil _ _ (pageEvents_ne_nil _ _ _)]
    exact he
  · intro hall
    show (StreamEvent.progress _ :: StreamEvent.progress _ ::
      pageEvents 1 doc.pages.length doc.pages).getLast? = _
    rw [getLast?_cons_cons_of_ne_nil _ _ (pageEvents_ne_nil _ _ _)]
    exact pageEvents_last_all_ok doc.pages.length doc.pages hall 1

/-- Counterexample to C9 as stated: a document that decodes with two
pages, whose second page's awaited extraction throws.  The stream carries
a page event only for page 1, not one per page of `1..2`, and ends with a
terminal error instead of a complete event. -/
theorem claimC9_counterexample :
    pageNums (post (some (Except.ok
      ⟨[Except.ok [], Except.error "boom".data]⟩))) = [1] ∧
    ([1] : List Nat) ≠ List.range' 1 2 ∧
    (post (some (Except.ok
      ⟨[Except.ok [], Except.error "boom".data]⟩))).getLast? =
      some (StreamEvent.error "boom".data) := by
  refine ⟨rfl, by decide, rfl⟩

/-- Witness for `claimC9` at a concrete one-page document whose single
page extraction succeeds. -/
theorem claimC9_witness :
    (∀ p ∈ ([Except.ok []] : List (Except (List Char) (List Fragment))),
      p.isOk = true) ∧
    (post (some (Except.ok (⟨[Except.ok []]⟩ : PdfDoc)))).getLast? =
      some (StreamEvent.complete "Processing complete!".data) :=
  ⟨by decide, (claimC9 ⟨[Except.ok []]⟩).2.2.2 (by decide)⟩

/-! ### The Greek-letter and operator rules as per-character expansion -/

theorem replaceChar_append (k : Char) (r xs ys : List Char) :
    replaceChar k r (xs ++ ys) = replaceChar k r xs ++ replaceChar k r ys := by
  induction xs with
  | nil => rfl
  | cons c t ih =>
    show (if c = k then r else [c]) ++ replaceChar k r (t ++ ys) = _
    rw [ih]
    show _ = ((if c = k then r else [c]) ++ replaceChar k r t) ++ replaceChar k r ys
    rw [List.append_assoc]

theorem replaceChar_of_not_mem {k : Char} {s : List Char} (h : k ∉ s) (r : List Char) :
    replaceChar k r s = s := by
  induction s with
  | nil => rfl
  | cons c t ih =>
    by_cases hc : c = k
    · subst hc
      exact absurd (List.mem_cons_self c t) h
    · show (if c = k then r else [c]) ++ replaceChar k r t = c :: t
      rw [if_neg hc, ih (fun hk => h (List.mem_cons_of_mem c hk))]
      rfl

theorem applyTable_fix {table : List (Char × List Char)} {s : List Char}
    (h : ∀ e ∈ table, e.1 ∉ s) : applyTable table s = s := by
  induction table with
  | nil => rfl
  | cons e t ih =>
    show applyTable t (replaceChar e.1 ('$' :: e.2 ++ ['$']) s) = s
    rw [replaceChar_of_not_mem (h e (List.mem_cons_self e t)) _]
    exact ih (fun e2 he2 => h e2 (List.mem_cons_of_mem _ he2))

theorem applyTable_append (table : List (Char × List Char)) (xs ys : List Char) :
    applyTable table (xs ++ ys) = applyTable table xs ++ applyTable table ys := by
  induction table generalizing xs ys with
  | nil => rfl
  | cons e t ih =>
    show applyTable t (replaceChar e.1 ('$' :: e.2 ++ ['$']) (xs ++ ys)) = _
    rw [replaceChar_append]
    exact ih _ _

/-- The per-character meaning of a replacement table: the first entry whose
key matches gives `$cmd$`, any other character is untouched. -/
def tableExpand (table : List (Char × List Char)) (c : Char) : List Char :=
  match table.lookup c with
  | some cmd => '$' :: cmd ++ ['$']
  | none => [c]

theorem applyTable_single (table : List (Char × List Char))
    (H : ∀ e ∈ table, ∀ e2 ∈ table, e2.1 ∉ ('$' :: e.2 ++ ['$'])) (c : Char) :
    applyTable table [c] = tableExpand table c := by
  induction table with
  | nil => rfl
  | cons e t ih =>
    obtain ⟨k, cmd⟩ := e
    show applyTable t (replaceChar k ('$' :: cmd ++ ['$']) [c]) = _
    by_cases hc : c = k
    · show applyTable t ((if c = k then '$' :: cmd ++ ['$'] else [c]) ++ []) = _
      rw [if_pos hc, List.append_nil]
      rw [applyTable_fix (fun e2 he2 =>
        H ⟨k, cmd⟩ (List.mem_cons_self _ t) e2 (List.mem_cons_of_mem _ he2))]
      show _ = tableExpand ((k, cmd) :: t) c
      rw [tableExpand]
      rw [show List.lookup c ((k, cmd) :: t) = some cmd by
        simp [List.lookup, hc]]
    · show applyTable t ((if c = k then '$' :: cmd ++ ['$'] else [c]) ++ []) = _
      rw [if_neg hc, List.append_nil]
      rw [ih (fun e1 he1 e2 he2 =>
        H e1 (List.mem_cons_of_mem _ he1) e2 (List.mem_cons_of_mem _ he2))]
      show tableExpand t c = tableExpand ((k, cmd) :: t) c
      rw [tableExpand, tableExpand]
      rw [show List.lookup c ((k, cmd) :: t) = List.lookup c t by
        rw [List.lookup]
        rw [show (c == k) = false from beq_eq_false_iff_ne.mpr hc]]

theorem applyTable_flatMap (table : List (Char × List Char))
    (H : ∀ e ∈ table, ∀ e2 ∈ table, e2.1 ∉ ('$' :: e.2 ++ ['$'])) (s : List Char) :
    applyTable table s = s.flatMap (fun c => tableExpand table c) := by
  induction s with
  | nil =>
    show applyTable table [] = []
    exact applyTable_fix (by simp)
  | cons c t ih =>
    rw [show c :: t = [c] ++ t from rfl, applyTable_append, ih, applyTable_single table H c]
    simp

/-- Per-character expansion performed by the Greek-letter rule. -/
def greekExpand (c : Char) : List Char := tableExpand greekLetters c

theorem greekLetters_keys_good :
    ∀ e ∈ greekLetters, ∀ e2 ∈ greekLetters, e2.1 ∉ ('$' :: e.2 ++ ['$']) := by
  decide

/-- C4 (amended): the Greek table has exactly 33 letters (not 31), and the
Greek rule is exactly the letter-by-letter expansion that replaces every
occurrence of a table letter by its LaTeX command wrapped in `$...$`,
independent of context, and touches no other character. -/
theorem claimC4 : greekLetters.length = 33 ∧
    ∀ s : List Char, greekRule s = s.flatMap greekExpand :=
  ⟨rfl, fun s => applyTable_flatMap greekLetters greekLetters_keys_good s⟩

/-- Counterexample to C4 as stated: the fixed set has 33 distinct letters,
each of which really is rewritten by the rule, so it is not a set of
exactly 31 letters. -/
theorem claimC4_counterexample :
    greekLetters.length = 33 ∧ (greekLetters.map Prod.fst).Nodup ∧
    greekLetters.all (fun e => greekRule [e.1] != [e.1]) = true := by
  refine ⟨rfl, by decide, by decide⟩

/-! ### Claims about the annotator pipeline and the equation rule -/

/-- C1 (amended): on the line `E=mc^2 and π is useful` the pipeline yields
`E=mc^{2} and $\pi$ is useful`.  The equation-rule match stops at the `{`
inserted by the exponent rule (braces are not in the match character
class), so the matched span `E=mc^` contains no digit and is left
unwrapped; no `$$...$$` block is produced. -/
theorem claimC1 :
    detectMathPatterns "E=mc^2 and π is useful".data =
      "E=mc^\x7b2\x7d and $\\pi$ is useful".data := by
  rw [← detectMathPatternsEv_eq]
  decide

/-- Counterexample to C1 as stated: the output on that line is not the
spec's `$$E=mc^{2} and $$$\pi$ is useful`. -/
theorem claimC1_counterexample :
    detectMathPatterns "E=mc^2 and π is useful".data ≠
      "$$E=mc^\x7b2\x7d and $$$\\pi$ is useful".data := by
  rw [← detectMathPatternsEv_eq]
  decide

/-- C2 (amended): every substring matched by the equation pattern has the
form `r1 = r2` with `r1`, `r2` nonempty runs over the class (which excludes
`=`), hence contains exactly one `=`; the rule rewrites the input by
substituting the callback on that match and continuing after it.  In
particular `x=1 and y=2` is wrapped as `$$x=1 and y$$=2`, not as one single
block. -/
theorem claimC2 (s pre m r : List Char) (h : eqFind s = some (pre, m, r)) :
    List.count '=' m = 1 ∧
    eqScan s = pre ++ eqCallback m ++ eqScan r ∧
    ∃ r1 r2, m = r1 ++ '=' :: r2 ∧ r1 ≠ [] ∧ r2 ≠ [] ∧
      (∀ c ∈ r1, isEqClassCh c = true) ∧ (∀ c ∈ r2, isEqClassCh c = true) := by
  obtain ⟨r1, r2, hm, h1, h2, hc1, hc2⟩ := eqFind_shape s pre m r h
  refine ⟨?_, eqScan_some h, r1, r2, hm, h1, h2, hc1, hc2⟩
  subst hm
  rw [List.count_append]
  have e1 : List.count '=' r1 = 0 :=
    List.count_eq_zero.mpr (fun hmem => absurd (hc1 _ hmem) (by decide))
  have e2 : List.count '=' r2 = 0 :=
    List.count_eq_zero.mpr (fun hmem => absurd (hc2 _ hmem) (by decide))
  rw [e1, List.count_cons, e2]
  rfl

/-- Counterexample to C2 as stated: `x=1 and y=2` is not wrapped as one
single block; the match stops before the second `=`. -/
theorem claimC2_counterexample :
    eqScan "x=1 and y=2".data = "$$x=1 and y$$=2".data ∧
    "$$x=1 and y$$=2".data ≠ "$$x=1 and y=2$$".data := by
  constructor
  · rw [← eqScanEv_eq ("x=1 and y=2".data).length _ (le_refl _)]
    decide
  · decide

/-- Witness for the amended C2 theorem at the concrete input
`x=1 and y=2`. -/
theorem claimC2_witness :
    eqFind "x=1 and y=2".data = some ([], "x=1 and y".data, "=2".data) ∧
    (List.count '=' "x=1 and y".data = 1 ∧
     eqScan "x=1 and y=2".data =
       [] ++ eqCallback "x=1 and y".data ++ eqScan "=2".data ∧
     ∃ r1 r2, "x=1 and y".data = r1 ++ '=' :: r2 ∧ r1 ≠ [] ∧ r2 ≠ [] ∧
       (∀ c ∈ r1, isEqClassCh c = true) ∧ (∀ c ∈ r2, isEqClassCh c = true)) := by
  have hf : eqFind "x=1 and y=2".data = some ([], "x=1 and y".data, "=2".data) := by
    rw [← eqFindEv_eq ("x=1 and y=2".data).length _ (le_refl _)]
    decide
  exact ⟨hf, claimC2 _ _ _ _ hf⟩

/-! ### Claim C10: the `already contains $` guard is unreachable -/

/-- No matched substring of the equation pattern contains `$`. -/
theorem eqFind_match_no_dollar (s pre m r : List Char)
    (h : eqFind s = some (pre, m, r)) : '$' ∉ m := by
  obtain ⟨r1, r2, hm, -, -, hc1, hc2⟩ := eqFind_shape s pre m r h
  subst hm
  intro hmem
  rcases List.mem_append.mp hmem with h1 | h2
  · exact absurd (hc1 _ h1) (by decide)
  · rcases List.mem_cons.mp h2 with h3 | h4
    · exact absurd h3 (by decide)
    · exact absurd (hc2 _ h4) (by decide)

theorem contains_eq_false {a : Char} {l : List Char} (h : a ∉ l) :
    l.contains a = false := by
  induction l with
  | nil => rfl
  | cons c t ih =>
    show (a == c || t.contains a) = false
    rw [show (a == c) = false from beq_eq_false_iff_ne.mpr
        (fun he => h (by rw [he]; exact List.mem_cons_self c t)),
      ih (fun hm => h (List.mem_cons_of_mem c hm))]
    rfl

/-- The equation callback with the `match.includes('$')` guard removed:
wrapping is decided solely by the operator and digit tests. -/
def eqCallbackNG (m : List Char) : List Char :=
  if m.any isOpCh && m.any Char.isDigit then
    '$' :: '$' :: trimWs m ++ ['$', '$']
  else m

/-- The equation rule built from the guard-free callback. -/
def eqScanNG (s : List Char) : List Char :=
  match hf : eqFind s with
  | none => s
  | some (pre, m, r) => pre ++ eqCallbackNG m ++ eqScanNG r
termination_by s.length
decreasing_by
  exact eqFind_rest_lt s pre m r hf

theorem eqScanNG_none {s : List Char} (h : eqFind s = none) : eqScanNG s = s := by
  rw [eqScanNG]
  split
  · rfl
  · rename_i pre m r heq
    rw [h] at heq
    cases heq

theorem eqScanNG_some {s pre m r : List Char} (h : eqFind s = some (pre, m, r)) :
    eqScanNG s = pre ++ eqCallbackNG m ++ eqScanNG r := by
  rw [eqScanNG]
  split
  · rename_i heq
    rw [h] at heq
    cases heq
  · rename_i pre1 m1 r1 heq
    rw [h] at heq
    injection heq with heq
    injection heq with h1 heq
    injection heq with h2 h3
    rw [h1, h2, h3]

/-- C10: for every input the equation rule behaves exactly as if the
`already contains $` guard were absent, because the match character class
excludes `$`: the guard branch is unreachable and wrapping is decided
solely by the operator and digit tests. -/
theorem claimC10 (s : List Char) : eqScan s = eqScanNG s := by
  induction s using eqScanNG.induct with
  | case1 s hf =>
    rw [eqScan_none hf, eqScanNG_none hf]
  | case2 s pre m r hf ih =>
    rw [eqScan_some hf, eqScanNG_some hf, ih]
    have hnd := eqFind_match_no_dollar s pre m r hf
    have : eqCallback m = eqCallbackNG m := by
      rw [eqCallback, if_neg (by rw [contains_eq_false hnd]; exact Bool.false_ne_true)]
      rfl
    rw [this]

/-! ### Claim C5: idempotence of the exponent rule -/

theorem head_some_cons {l : List Char} {a : Char} (h : l.head? = some a) :
    l = a :: l.tail := by
  cases l with
  | nil => cases h
  | cons x t =>
    injection h with h
    rw [h]
    exact rfl

theorem dropWhile_head_false {p : Char → Bool} {l : List Char} {x : Char} {xs : List Char}
    (h : l.dropWhile p = x :: xs) : p x = false := by
  induction l with
  | nil => simp at h
  | cons c t ih =>
    by_cases hc : p c
    · rw [List.dropWhile_cons_of_pos hc] at h
      exact ih h
    · rw [List.dropWhile_cons_of_neg hc] at h
      injection h with h1 h2
      rw [← h1]
      exact Bool.eq_false_iff.mpr hc

theorem dropWhile_append_all {p : Char → Bool} {r : List Char}
    (h : ∀ x ∈ r, p x = true) (X : List Char) :
    (r ++ X).dropWhile p = X.dropWhile p := by
  induction r with
  | nil => rfl
  | cons a t ih =>
    rw [List.cons_append, List.dropWhile_cons_of_pos (h a (List.mem_cons_self a t))]
    exact ih (fun x hx => h x (List.mem_cons_of_mem a hx))

/-- Mirror of `expScan` returning whether the exponent pattern
`([a-zA-Z0-9]+)\^(\d+)` matches anywhere in the string. -/
def hasExpMatch (s : List Char) : Bool :=
  match s with
  | [] => false
  | c :: rest =>
    if isAlnumCh c then
      if (rest.dropWhile isAlnumCh).head? = some '^' then
        if (((rest.dropWhile isAlnumCh).tail).takeWhile Char.isDigit).isEmpty then
          hasExpMatch ((rest.dropWhile isAlnumCh).tail)
        else true
      else hasExpMatch (rest.dropWhile isAlnumCh)
    else hasExpMatch rest
termination_by s.length
decreasing_by
  all_goals simp only [List.length_cons]
  · have h1 := dropWhile_len_le isAlnumCh rest
    have h2 := tail_len_le (rest.dropWhile isAlnumCh)
    omega
  · have h1 := dropWhile_len_le isAlnumCh rest
    omega
  · omega

/-- A string without an exponent match is fixed by the exponent scanner. -/
theorem expScan_of_no_match (s : List Char) (h : hasExpMatch s = false) :
    expScan s = s := by
  induction s using expScan.induct with
  | case1 =>
    rw [expScan]
  | case2 c rest hc heq hemp ih =>
    rw [hasExpMatch, if_pos hc, if_pos heq, if_pos hemp] at h
    rw [expScan, if_pos hc, if_pos heq, if_pos hemp, ih h]
    have hsh : rest.dropWhile isAlnumCh = '^' :: (rest.dropWhile isAlnumCh).tail :=
      head_some_cons heq
    rw [show ('^' :: (rest.dropWhile isAlnumCh).tail : List Char) =
        rest.dropWhile isAlnumCh from hsh.symm]
    rw [List.cons_append, takeWhile_dropWhile_eq]
  | case3 c rest hc heq hemp ih =>
    rw [hasExpMatch, if_pos hc, if_pos heq, if_neg hemp] at h
    cases h
  | case4 c rest hc hne ih =>
    rw [hasExpMatch, if_pos hc, if_neg hne] at h
    rw [expScan, if_pos hc, if_neg hne, ih h]
    rw [List.cons_append, takeWhile_dropWhile_eq]
  | case5 c rest hc ih =>
    rw [hasExpMatch, if_neg hc] at h
    rw [expScan, if_neg hc, ih h]

/-- The scanner always keeps the first character of its input. -/
theorem expScan_cons (c : Char) (rest : List Char) :
    ∃ t, expScan (c :: rest) = c :: t := by
  rw [expScan]
  by_cases h1 : isAlnumCh c
  · rw [if_pos h1]
    by_cases h2 : (rest.dropWhile isAlnumCh).head? = some '^'
    · rw [if_pos h2]
      by_cases h3 : (((rest.dropWhile isAlnumCh).tail).takeWhile Char.isDigit).isEmpty
      · rw [if_pos h3]
        exact ⟨_, rfl⟩
      · rw [if_neg h3]
        exact ⟨_, rfl⟩
    · rw [if_neg h2]
      exact ⟨_, rfl⟩
  · rw [if_neg h1]
    exact ⟨_, rfl⟩

/-- When the characters after `^` start with a non-digit (or run out), so
does the scanned continuation. -/
theorem expScan_takeWhile_digit_nil {l : List Char}
    (h : (l.takeWhile Char.isDigit).isEmpty = true) :
    (expScan l).takeWhile Char.isDigit = [] := by
  cases l with
  | nil =>
    rw [expScan]
    rfl
  | cons x xs =>
    have hx : ¬ Char.isDigit x = true := by
      intro hd
      rw [List.takeWhile_cons_of_pos hd] at h
      simp at h
    obtain ⟨t, ht⟩ := expScan_cons x xs
    rw [ht, List.takeWhile_cons_of_neg hx]

/-- Digit runs followed by a closing brace and a matchless continuation
contain no exponent match. -/
theorem hasExpMatch_digits (d : List Char) (hne : d ≠ [])
    (hd : ∀ x ∈ d, Char.isDigit x = true) (T : List Char)
    (hT : hasExpMatch T = false) :
    hasExpMatch (d ++ '\x7d' :: T) = false := by
  cases d with
  | nil => exact absurd rfl hne
  | cons d0 d' =>
    have h0 : isAlnumCh d0 = true := by
      have := hd d0 (List.mem_cons_self d0 d')
      simp [isAlnumCh, this]
    have hall : ∀ x ∈ d', isAlnumCh x = true := by
      intro x hx
      have := hd x (List.mem_cons_of_mem d0 hx)
      simp [isAlnumCh, this]
    rw [List.cons_append, hasExpMatch, if_pos h0]
    rw [dropWhile_append_all hall]
    rw [List.dropWhile_cons_of_neg (by decide)]
    rw [if_neg (by simp)]
    rw [hasExpMatch, if_neg (by decide)]
    exact hT

/-- Key step for idempotence: the output of the exponent scanner contains
no remaining exponent match. -/
theorem expScan_no_match (s : List Char) : hasExpMatch (expScan s) = false := by
  induction s using expScan.induct with
  | case1 =>
    rw [expScan]
    rw [hasExpMatch]
  | case2 c rest hc heq hemp ih =>
    rw [expScan, if_pos hc, if_pos heq, if_pos hemp]
    simp only [List.cons_append, List.append_assoc]
    rw [hasExpMatch, if_pos hc]
    rw [dropWhile_append_all (takeWhile_all isAlnumCh rest)]
    rw [List.dropWhile_cons_of_neg (by decide)]
    simp only [List.head?_cons, List.tail_cons]
    simp only [if_true]
    have hT := expScan_takeWhile_digit_nil (l := (rest.dropWhile isAlnumCh).tail) hemp
    rw [hT]
    simp only [List.isEmpty_nil, if_true]
    exact ih
  | case3 c rest hc heq hemp ih =>
    rw [expScan, if_pos hc, if_pos heq, if_neg hemp]
    simp only [List.cons_append, List.append_assoc]
    rw [hasExpMatch, if_pos hc]
    rw [dropWhile_append_all (takeWhile_all isAlnumCh rest)]
    rw [List.dropWhile_cons_of_neg (by decide)]
    simp only [List.head?_cons, List.tail_cons]
    simp only [if_true]
    rw [List.takeWhile_cons_of_neg (by decide)]
    simp only [List.isEmpty_nil, if_true]
    rw [hasExpMatch, if_neg (by decide)]
    refine hasExpMatch_digits _ ?_ ?_ _ ih
    · intro hnil
      rw [hnil] at hemp
      exact hemp rfl
    · exact takeWhile_all Char.isDigit ((rest.dropWhile isAlnumCh).tail)
  | case4 c rest hc hne ih =>
    rw [expScan, if_pos hc, if_neg hne]
    simp only [List.cons_append, List.append_assoc]
    rw [hasExpMatch, if_pos hc]
    rw [dropWhile_append_all (takeWhile_all isAlnumCh rest)]
    cases hs1 : rest.dropWhile isAlnumCh with
    | nil =>
      rw [show expScan ([] : List Char) = [] by rw [expScan]]
      simp only [List.dropWhile_nil]
      rw [if_neg (by simp)]
      rw [hasExpMatch]
    | cons x xs =>
      have hx : isAlnumCh x = false := dropWhile_head_false hs1
      obtain ⟨t, ht⟩ := expScan_cons x xs
      rw [hs1] at ih
      rw [ht] at ih ⊢
      rw [List.dropWhile_cons_of_neg (by simp [hx])]
      rw [if_neg (fun hcon => hne (by rw [hs1]; exact hcon))]
      exact ih
  | case5 c rest hc ih =>
    rw [expScan, if_neg hc]
    rw [hasExpMatch, if_neg hc]
    exact ih

/-- The exponent scanner is idempotent. -/
theorem expScan_idem (s : List Char) : expScan (expScan s) = expScan s :=
  expScan_of_no_match (expScan s) (expScan_no_match s)

/-- The brace-normalisation rewrite replaces every match by itself, so it
is the identity on every string. -/
theorem expBrace_id (s : List Char) : expBrace s = s := by
  induction s using expBrace.induct with
  | case1 =>
    rw [expBrace]
  | case2 c rest hc h2 h3 ih =>
    rw [expBrace, if_pos hc, if_pos h2, if_pos h3, ih]
    obtain ⟨h21, h22⟩ := h2
    obtain ⟨h31, h32⟩ := h3
    have e1 := head_some_cons h21
    have e2 := head_some_cons h22
    have e3 := head_some_cons h31
    have hs2 : (rest.dropWhile isAlnumCh).tail.tail =
        ((rest.dropWhile isAlnumCh).tail.tail).takeWhile (isNotCh '\x7d') ++ '\x7d' ::
          (((rest.dropWhile isAlnumCh).tail.tail).dropWhile (isNotCh '\x7d')).tail := by
      conv_lhs =>
        rw [← takeWhile_dropWhile_eq (isNotCh '\x7d')
          ((rest.dropWhile isAlnumCh).tail.tail)]
        rw [e3]
    conv_rhs => rw [← takeWhile_dropWhile_eq isAlnumCh rest, e1, e2, hs2]
    simp only [List.cons_append, List.append_assoc]
  | case3 c rest hc h2 h3 ih =>
    rw [expBrace, if_pos hc, if_pos h2, if_neg h3, ih]
    obtain ⟨h21, h22⟩ := h2
    have e1 := head_some_cons h21
    have e2 := head_some_cons h22
    conv_rhs => rw [← takeWhile_dropWhile_eq isAlnumCh rest, e1, e2]
    simp only [List.cons_append, List.append_assoc]
  | case4 c rest hc h2 ih =>
    rw [expBrace, if_pos hc, if_neg h2, ih]
    conv_rhs => rw [← takeWhile_dropWhile_eq isAlnumCh rest]
    simp only [List.cons_append, List.append_assoc]
  | case5 c rest hc ih =>
    rw [expBrace, if_neg hc, ih]

/-- The exponent rule of the route: the `x^2` rewrite followed by the
already-braced normalisation (lines 17-19). -/
def exponentRule (s : List Char) : List Char := expBrace (expScan s)

/-- C5: the exponent rule is idempotent: applying it to its own output
changes nothing, because the brace-normalisation pass is the identity and
the output of the `x^2` pass contains no further match of the exponent
pattern. -/
theorem claimC5 (s : List Char) : exponentRule (exponentRule s) = exponentRule s := by
  rw [exponentRule, exponentRule, expBrace_id, expBrace_id]
  exact expScan_idem s

/-! ### Markup Segmenter (the `MathRenderer` component) -/

/-- Closing search for a block span: content is the shortest run of
non-newline characters followed by `$$` (the lazy `(.*?)` of
`/\$\$(.*?)\$\$/`; `.` does not match a newline). -/
def findBlockClose (s : List Char) : Option (List Char × List Char) :=
  match s with
  | [] => none
  | c :: rest =>
    if c = '$' ∧ rest.head? = some '$' then some ([], rest.tail)
    else if c = '\n' then none
    else (findBlockClose rest).map (fun pr => (c :: pr.1, pr.2))

theorem findBlockClose_eq (s : List Char) :
    ∀ co r, findBlockClose s = some (co, r) → s = co ++ '$' :: '$' :: r := by
  induction s with
  | nil =>
    intro co r h
    simp [findBlockClose] at h
  | cons c rest ih =>
    intro co r h
    rw [findBlockClose] at h
    by_cases h1 : c = '$' ∧ rest.head? = some '$'
    · rw [if_pos h1] at h
      simp only [Option.some_inj, Prod.mk.injEq] at h
      obtain ⟨hco, hr⟩ := h
      subst hco
      subst hr
      obtain ⟨hc, hh⟩ := h1
      subst hc
      rw [List.nil_append]
      conv_lhs => rw [head_some_cons hh]
    · rw [if_neg h1] at h
      by_cases h2 : c = '\n'
      · rw [if_pos h2] at h
        cases h
      · rw [if_neg h2] at h
        rcases hopt : findBlockClose rest with _ | ⟨⟨co1, r1⟩⟩
        · rw [hopt] at h
          simp at h
        · rw [hopt] at h
          simp only [Option.map_some', Option.some_inj, Prod.mk.injEq] at h
          obtain ⟨h3, h4⟩ := h
          subst h3
          subst h4
          rw [List.cons_append, ← ih co1 r1 hopt]

/-- Leftmost block-math match `(before, content, after)` of
`/\$\$(.*?)\$\$/`; when an opening `$$` has no closing `$$` on the line
the engine moves one position right. -/
def scanBlock (s : List Char) : Option (List Char × List Char × List Char) :=
  match s with
  | [] => none
  | c :: rest =>
    if c = '$' ∧ rest.head? = some '$' then
      match findBlockClose rest.tail with
      | some (content, r) => some ([], content, r)
      | none => (scanBlock rest).map (fun pr => (c :: pr.1, pr.2.1, pr.2.2))
    else (scanBlock rest).map (fun pr => (c :: pr.1, pr.2.1, pr.2.2))

theorem scanBlock_eq (s : List Char) :
    ∀ pre co r, scanBlock s = some (pre, co, r) →
      s = pre ++ '$' :: '$' :: co ++ '$' :: '$' :: r := by
  induction s with
  | nil =>
    intro pre co r h
    simp [scanBlock] at h
  | cons c rest ih =>
    intro pre co r h
    rw [scanBlock] at h
    by_cases h1 : c = '$' ∧ rest.head? = some '$'
    · rw [if_pos h1] at h
      rcases hf : findBlockClose rest.tail with _ | ⟨⟨co1, r1⟩⟩
      · rw [hf] at h
        rcases hopt : scanBlock rest with _ | ⟨⟨p1, c1, q1⟩⟩
        · rw [hopt] at h
          simp at h
        · rw [hopt] at h
          simp only [Option.map_some', Option.some_inj, Prod.mk.injEq] at h
          obtain ⟨h3, h4, h5⟩ := h
          subst h3
          subst h4
          subst h5
          rw [ih p1 c1 q1 hopt]
          simp only [List.cons_append]
      · rw [hf] at h
        simp only [Option.some_inj, Prod.mk.injEq] at h
        obtain ⟨h3, h4, h5⟩ := h
        subst h3
        subst h4
        subst h5
        obtain ⟨hc, hh⟩ := h1
        subst hc
        rw [List.nil_append]
        have e2 := findBlockClose_eq rest.tail co1 r1 hf
        conv_lhs => rw [head_some_cons hh, e2]
        simp only [List.cons_append]
    · rw [if_neg h1] at h
      rcases hopt : scanBlock rest with _ | ⟨⟨p1, c1, q1⟩⟩
      · rw [hopt] at h
        simp at h
      · rw [hopt] at h
        simp only [Option.map_some', Option.some_inj, Prod.mk.injEq] at h
        obtain ⟨h3, h4, h5⟩ := h
        subst h3
        subst h4
        subst h5
        rw [ih p1 c1 q1 hopt]
        simp only [List.cons_append]

theorem scanBlock_rest_lt (s pre co r : List Char)
    (h : scanBlock s = some (pre, co, r)) : r.length < s.length := by
  have hd := scanBlock_eq s pre co r h
  rw [hd]
  simp only [List.append_assoc, List.length_append, List.length_cons]
  omega

/-- Closing search for an inline span: shortest run of non-newline
characters followed by a single `$`. -/
def findInlineClose (s : List Char) : Option (List Char × List Char) :=
  match s with
  | [] => none
  | c :: rest =>
    if c = '$' then some ([], rest)
    else if c = '\n' then none
    else (findInlineClose rest).map (fun pr => (c :: pr.1, pr.2))

theorem findInlineClose_eq (s : List Char) :
    ∀ co r, findInlineClose s = some (co, r) → s = co ++ '$' :: r := by
  induction s with
  | nil =>
    intro co r h
    simp [findInlineClose] at h
  | cons c rest ih =>
    intro co r h
    rw [findInlineClose] at h
    by_cases h1 : c = '$'
    · rw [if_pos h1] at h
      simp only [Option.some_inj, Prod.mk.injEq] at h
      obtain ⟨hco, hr⟩ := h
      subst hco
      subst hr
      subst h1
      rfl
    · rw [if_neg h1] at h
      by_cases h2 : c = '\n'
      · rw [if_pos h2] at h
        cases h
      · rw [if_neg h2] at h
        rcases hopt : findInlineClose rest with _ | ⟨⟨co1, r1⟩⟩
        · rw [hopt] at h
          simp at h
        · rw [hopt] at h
          simp only [Option.map_some', Option.some_inj, Prod.mk.injEq] at h
          obtain ⟨h3, h4⟩ := h
          subst h3
          subst h4
          rw [List.cons_append, ← ih co1 r1 hopt]

/-- Leftmost inline-math match of `/\$(.*?)\$/`. -/
def scanInline (s : List Char) : Option (List Char × List Char × List Char) :=
  match s with
  | [] => none
  | c :: rest =>
    if c = '$' then
      match findInlineClose rest with
      | some (content, r) => some ([], content, r)
      | none => (scanInline rest).map (fun pr => (c :: pr.1, pr.2.1, pr.2.2))
    else (scanInline rest).map (fun pr => (c :: pr.1, pr.2.1, pr.2.2))

theorem scanInline_eq (s : List Char) :
    ∀ pre co r, scanInline s = some (pre, co, r) →
      s = pre ++ '$' :: co ++ '$' :: r := by
  induction s with
  | nil =>
    intro pre co r h
    simp [scanInline] at h
  | cons c rest ih =>
    intro pre co r h
    rw [scanInline] at h
    by_cases h1 : c = '$'
    · rw [if_pos h1] at h
      rcases hf : findInlineClose rest with _ | ⟨⟨co1, r1⟩⟩
      · rw [hf] at h
        rcases hopt : scanInline rest with _ | ⟨⟨p1, c1, q1⟩⟩
        · rw [hopt] at h
          simp at h
        · rw [hopt] at h
          simp only [Option.map_some', Option.some_inj, Prod.mk.injEq] at h
          obtain ⟨h3, h4, h5⟩ := h
          subst h3
          subst h4
          subst h5
          rw [ih p1 c1 q1 hopt]
          simp only [List.cons_append]
      · rw [hf] at h
        simp only [Option.some_inj, Prod.mk.injEq] at h
        obtain ⟨h3, h4, h5⟩ := h
        subst h3
        subst h4
        subst h5
        subst h1
        rw [List.nil_append]
        have e2 := findInlineClose_eq rest co1 r1 hf
        conv_lhs => rw [e2]
        simp only [List.cons_append]
    · rw [if_neg h1] at h
      rcases hopt : scanInline rest with _ | ⟨⟨p1, c1, q1⟩⟩
      · rw [hopt] at h
        simp at h
      · rw [hopt] at h
        simp only [Option.map_some', Option.some_inj, Prod.mk.injEq] at h
        obtain ⟨h3, h4, h5⟩ := h
        subst h3
        subst h4
        subst h5
        rw [ih p1 c1 q1 hopt]
        simp only [List.cons_append]

theorem scanInline_rest_lt (s pre co r : List Char)
    (h : scanInline s = some (pre, co, r)) : r.length < s.length := by
  have hd := scanInline_eq s pre co r h
  rw [hd]
  simp only [List.append_assoc, List.length_append, List.length_cons]
  omega

/-- A segment of one rendered line. -/
inductive MathSeg
  | text (raw : List Char)
  | block (content : List Char)
  | inline (content : List Char)

/-- The raw literal text of a segment, delimiters included. -/
def segRaw : MathSeg → List Char
  | MathSeg.text r => r
  | MathSeg.block co => '$' :: '$' :: co ++ ['$', '$']
  | MathSeg.inline co => '$' :: co ++ ['$']

/-- Concatenation of the raw texts of a segment list. -/
def rawConcat : List MathSeg → List Char
  | [] => []
  | sg :: t => segRaw sg ++ rawConcat t

theorem rawConcat_append (xs ys : List MathSeg) :
    rawConcat (xs ++ ys) = rawConcat xs ++ rawConcat ys := by
  induction xs with
  | nil => rfl
  | cons sg t ih =>
    rw [List.cons_append, rawConcat, rawConcat, ih, List.append_assoc]

/-- Block segmentation: text before each block span, the block segment,
then the rest; trailing text if nonempty. -/
def segmentBlocks (s : List Char) : List MathSeg :=
  match hs : scanBlock s with
  | none => if s.isEmpty then [] else [MathSeg.text s]
  | some (pre, co, r) =>
      (if pre.isEmpty then [] else [MathSeg.text pre]) ++
        MathSeg.block co :: segmentBlocks r
termination_by s.length
decreasing_by
  exact scanBlock_rest_lt s pre co r hs

theorem segmentBlocks_none {s : List Char} (h : scanBlock s = none) :
    segmentBlocks s = if s.isEmpty then [] else [MathSeg.text s] := by
  rw [segmentBlocks]
  split
  · rfl
  · rename_i pre co r heq
    rw [h] at heq
    cases heq

theorem segmentBlocks_some {s pre co r : List Char}
    (h : scanBlock s = some (pre, co, r)) :
    segmentBlocks s = (if pre.isEmpty then [] else [MathSeg.text pre]) ++
      MathSeg.block co :: segmentBlocks r := by
  rw [segmentBlocks]
  split
  · rename_i heq
    rw [h] at heq
    cases heq
  · rename_i p1 c1 r1 heq
    rw [h] at heq
    injection heq with heq
    injection heq with e1 heq
    injection heq with e2 e3
    rw [e1, e2, e3]

/-- Inline segmentation, used when the line has no block span. -/
def segmentInlines (s : List Char) : List MathSeg :=
  match hs : scanInline s with
  | none => if s.isEmpty then [] else [MathSeg.text s]
  | some (pre, co, r) =>
      (if pre.isEmpty then [] else [MathSeg.text pre]) ++
        MathSeg.inline co :: segmentInlines r
termination_by s.length
decreasing_by
  exact scanInline_rest_lt s pre co r hs

theorem segmentInlines_none {s : List Char} (h : scanInline s = none) :
    segmentInlines s = if s.isEmpty then [] else [MathSeg.text s] := by
  rw [segmentInlines]
  split
  · rfl
  · rename_i pre co r heq
    rw [h] at heq
    cases heq

theorem segmentInlines_some {s pre co r : List Char}
    (h : scanInline s = some (pre, co, r)) :
    segmentInlines s = (if pre.isEmpty then [] else [MathSeg.text pre]) ++
      MathSeg.inline co :: segmentInlines r := by
  rw [segmentInlines]
  split
  · rename_i heq
    rw [h] at heq
    cases heq
  · rename_i p1 c1 r1 heq
    rw [h] at heq
    injection heq with heq
    injection heq with e1 heq
    injection heq with e2 e3
    rw [e1, e2, e3]

/-- One line of annotated text is segmented by the block scan when it
contains a block span, and by the inline scan otherwise (never both). -/
def segmentLine (line : List Char) : List MathSeg :=
  if (scanBlock line).isSome then segmentBlocks line else segmentInlines line

theorem segmentBlocks_coverage (s : List Char) : rawConcat (segmentBlocks s) = s := by
  induction s using segmentBlocks.induct with
  | case1 s hf he =>
    rw [segmentBlocks_none hf, if_pos he]
    rw [List.isEmpty_iff] at he
    rw [he]
    rfl
  | case2 s hf he =>
    rw [segmentBlocks_none hf, if_neg he]
    rw [rawConcat, rawConcat, segRaw, List.append_nil]
  | case3 s pre co r hf ih =>
    rw [segmentBlocks_some hf, rawConcat_append, rawConcat, segRaw, ih]
    have hd := scanBlock_eq s pre co r hf
    by_cases hp : pre.isEmpty
    · rw [if_pos hp, rawConcat]
      rw [List.isEmpty_iff] at hp
      rw [hd, hp]
      simp
    · rw [if_neg hp, rawConcat, rawConcat, segRaw, List.append_nil, hd]
      simp

theorem segmentInlines_coverage (s : List Char) : rawConcat (segmentInlines s) = s := by
  induction s using segmentInlines.induct with
  | case1 s hf he =>
    rw [segmentInlines_none hf, if_pos he]
    rw [List.isEmpty_iff] at he
    rw [he]
    rfl
  | case2 s hf he =>
    rw [segmentInlines_none hf, if_neg he]
    rw [rawConcat, rawConcat, segRaw, List.append_nil]
  | case3 s pre co r hf ih =>
    rw [segmentInlines_some hf, rawConcat_append, rawConcat, segRaw, ih]
    have hd := scanInline_eq s pre co r hf
    by_cases hp : pre.isEmpty
    · rw [if_pos hp, rawConcat]
      rw [List.isEmpty_iff] at hp
      rw [hd, hp]
      simp
    · rw [if_neg hp, rawConcat, rawConcat, segRaw, List.append_nil, hd]
      simp

/-- C6: segment coverage: concatenating the raw literal text of the
segments produced for a line, delimiters included, reproduces the line
exactly, with no gaps and no overlaps. -/
theorem claimC6 (line : List Char) : rawConcat (segmentLine line) = line := by
  rw [segmentLine]
  by_cases h : (scanBlock line).isSome
  · rw [if_pos h]
    exact segmentBlocks_coverage line
  · rw [if_neg h]
    exact segmentInlines_coverage line

/-! ### Claim C7: balanced, non-nested delimiters -/

/-- A string without a dollar character. -/
def noDollar (s : List Char) : Prop := '$' ∉ s

theorem noDollar_append {a b : List Char} (ha : noDollar a) (hb : noDollar b) :
    noDollar (a ++ b) := by
  intro h
  rcases List.mem_append.mp h with h | h
  · exact ha h
  · exact hb h

theorem noDollar_cons {c : Char} {t : List Char} (hc : c ≠ '$') (ht : noDollar t) :
    noDollar (c :: t) := by
  intro h
  rcases List.mem_cons.mp h with h | h
  · exact hc h.symm
  · exact ht h

theorem noDollar_of_cons {c : Char} {t : List Char} (h : noDollar (c :: t)) :
    c ≠ '$' ∧ noDollar t := by
  constructor
  · intro hc
    exact h (by rw [hc]; exact List.mem_cons_self _ _)
  · exact fun hm => h (List.mem_cons_of_mem c hm)

theorem noDollar_takeWhile {p : Char → Bool} {l : List Char} (h : noDollar l) :
    noDollar (l.takeWhile p) :=
  fun hm => h (mem_of_mem_takeWhile hm)

theorem noDollar_dropWhile {p : Char → Bool} {l : List Char} (h : noDollar l) :
    noDollar (l.dropWhile p) :=
  fun hm => h (mem_of_mem_dropWhile hm)

theorem noDollar_tail {l : List Char} (h : noDollar l) : noDollar l.tail := by
  cases l with
  | nil => exact h
  | cons c t => exact (noDollar_of_cons h).2

theorem noDollar_singleton {c : Char} (hc : c ≠ '$') : noDollar [c] :=
  noDollar_cons hc (by intro h; cases h)

/-- The fraction rule inserts only `\frac` and braces, so it keeps the
text dollar-free. -/
theorem fracScan_noDollar (s : List Char) (h : noDollar s) : noDollar (fracScan s) := by
  induction s using fracScan.induct with
  | case1 =>
    rw [fracScan]
    exact h
  | case2 c rest hc heq hemp ih =>
    rw [fracScan, if_pos hc, if_pos heq, if_pos hemp]
    obtain ⟨hc1, hrest⟩ := noDollar_of_cons h
    have h2 : noDollar ((rest.dropWhile Char.isDigit).tail) :=
      noDollar_tail (noDollar_dropWhile hrest)
    simp only [List.cons_append]
    exact noDollar_cons hc1 (noDollar_append (noDollar_takeWhile hrest)
      (noDollar_cons (by decide) (ih h2)))
  | case3 c rest hc heq hemp ih =>
    rw [fracScan, if_pos hc, if_pos heq, if_neg hemp]
    obtain ⟨hc1, hrest⟩ := noDollar_of_cons h
    have h2 : noDollar ((rest.dropWhile Char.isDigit).tail) :=
      noDollar_tail (noDollar_dropWhile hrest)
    simp only [List.cons_append, List.append_assoc]
    refine noDollar_cons (by decide) (noDollar_cons (by decide) (noDollar_cons (by decide)
      (noDollar_cons (by decide) (noDollar_cons (by decide) (noDollar_cons (by decide)
        (noDollar_cons hc1 (noDollar_append (noDollar_takeWhile hrest)
          (noDollar_cons (by decide) (noDollar_cons (by decide)
            (noDollar_append (noDollar_takeWhile h2)
              (noDollar_cons (by decide) (ih (noDollar_dropWhile h2)))))))))))))
  | case4 c rest hc hne ih =>
    rw [fracScan, if_pos hc, if_neg hne]
    obtain ⟨hc1, hrest⟩ := noDollar_of_cons h
    simp only [List.cons_append]
    exact noDollar_cons hc1 (noDollar_append (noDollar_takeWhile hrest)
      (ih (noDollar_dropWhile hrest)))
  | case5 c rest hc ih =>
    rw [fracScan, if_neg hc]
    obtain ⟨hc1, hrest⟩ := noDollar_of_cons h
    exact noDollar_cons hc1 (ih hrest)

/-- The exponent rule inserts only a brace pair. -/
theorem expScan_noDollar (s : List Char) (h : noDollar s) : noDollar (expScan s) := by
  induction s using expScan.induct with
  | case1 =>
    rw [expScan]
    exact h
  | case2 c rest hc heq hemp ih =>
    rw [expScan, if_pos hc, if_pos heq, if_pos hemp]
    obtain ⟨hc1, hrest⟩ := noDollar_of_cons h
    have h2 : noDollar ((rest.dropWhile isAlnumCh).tail) :=
      noDollar_tail (noDollar_dropWhile hrest)
    simp only [List.cons_append]
    exact noDollar_cons hc1 (noDollar_append (noDollar_takeWhile hrest)
      (noDollar_cons (by decide) (ih h2)))
  | case3 c rest hc heq hemp ih =>
    rw [expScan, if_pos hc, if_pos heq, if_neg hemp]
    obtain ⟨hc1, hrest⟩ := noDollar_of_cons h
    have h2 : noDollar ((rest.dropWhile isAlnumCh).tail) :=
      noDollar_tail (noDollar_dropWhile hrest)
    simp only [List.cons_append, List.append_assoc]
    exact noDollar_cons hc1 (noDollar_append (noDollar_takeWhile hrest)
      (noDollar_cons (by decide) (noDollar_cons (by decide)
        (noDollar_append (noDollar_takeWhile h2)
          (noDollar_cons (by decide) (ih (noDollar_dropWhile h2)))))))
  | case4 c rest hc hne ih =>
    rw [expScan, if_pos hc, if_neg hne]
    obtain ⟨hc1, hrest⟩ := noDollar_of_cons h
    simp only [List.cons_append]
    exact noDollar_cons hc1 (noDollar_append (noDollar_takeWhile hrest)
      (ih (noDollar_dropWhile hrest)))
  | case5 c rest hc ih =>
    rw [expScan, if_neg hc]
    obtain ⟨hc1, hrest⟩ := noDollar_of_cons h
    exact noDollar_cons hc1 (ih hrest)

/-- The root rules insert only `\sqrt` and braces. -/
theorem sqrtParenScan_noDollar (s : List Char) (h : noDollar s) :
    noDollar (sqrtParenScan s) := by
  induction s using sqrtParenScan.induct with
  | case1 =>
    rw [sqrtParenScan]
    exact h
  | case2 c rest h1 h2 ih =>
    rw [sqrtParenScan, if_pos h1, if_pos h2]
    obtain ⟨hc1, hrest⟩ := noDollar_of_cons h
    have ht : noDollar rest.tail := noDollar_tail hrest
    have h3 : noDollar ((rest.tail.dropWhile (isNotCh ')')).tail) :=
      noDollar_tail (noDollar_dropWhile ht)
    simp only [List.cons_append, List.append_assoc]
    refine noDollar_cons (by decide) (noDollar_cons (by decide) (noDollar_cons (by decide)
      (noDollar_cons (by decide) (noDollar_cons (by decide) (noDollar_cons (by decide)
        (noDollar_append (noDollar_takeWhile ht)
          (noDollar_cons (by decide) (ih h3))))))))
  | case3 c rest h1 h2 ih =>
    rw [sqrtParenScan, if_pos h1, if_neg h2]
    obtain ⟨hc1, hrest⟩ := noDollar_of_cons h
    exact noDollar_cons (by decide) (ih hrest)
  | case4 c rest h1 ih =>
    rw [sqrtParenScan, if_neg h1]
    obtain ⟨hc1, hrest⟩ := noDollar_of_cons h
    exact noDollar_cons hc1 (ih hrest)

theorem sqrtNumScan_noDollar (s : List Char) (h : noDollar s) :
    noDollar (sqrtNumScan s) := by
  induction s using sqrtNumScan.induct with
  | case1 =>
    rw [sqrtNumScan]
    exact h
  | case2 c rest h1 ih =>
    rw [sqrtNumScan, if_pos h1]
    obtain ⟨hc1, hrest⟩ := noDollar_of_cons h
    simp only [List.cons_append, List.append_assoc]
    refine noDollar_cons (by decide) (noDollar_cons (by decide) (noDollar_cons (by decide)
      (noDollar_cons (by decide) (noDollar_cons (by decide) (noDollar_cons (by decide)
        (noDollar_append (noDollar_takeWhile hrest)
          (noDollar_cons (by decide) (ih (noDollar_dropWhile hrest)))))))))
  | case3 c rest h1 ih =>
    rw [sqrtNumScan, if_neg h1]
    obtain ⟨hc1, hrest⟩ := noDollar_of_cons h
    exact noDollar_cons hc1 (ih hrest)

/-- Balanced, non-nested math delimiters: the string is a sequence of
non-dollar characters, inline spans `$cmd$` with dollar-free nonempty
content, and block spans `$$content$$` with dollar-free nonempty content.
No span content is itself wrapped again. -/
inductive Delimited : List Char → Prop
  | nil : Delimited []
  | chr {c : Char} {rest : List Char} :
      c ≠ '$' → Delimited rest → Delimited (c :: rest)
  | inlineSpan {co rest : List Char} : co ≠ [] → noDollar co → Delimited rest →
      Delimited ('$' :: co ++ '$' :: rest)
  | blockSpan {co rest : List Char} : co ≠ [] → noDollar co → Delimited rest →
      Delimited ('$' :: '$' :: co ++ '$' :: '$' :: rest)

theorem delimited_append {a b : List Char} (ha : Delimited a) (hb : Delimited b) :
    Delimited (a ++ b) := by
  induction ha with
  | nil => exact hb
  | chr hc _ ih =>
    rw [List.cons_append]
    exact Delimited.chr hc ih
  | inlineSpan hne hnd _ ih =>
    simp only [List.cons_append, List.append_assoc]
    exact Delimited.inlineSpan hne hnd ih
  | blockSpan hne hnd _ ih =>
    simp only [List.cons_append, List.append_assoc]
    exact Delimited.blockSpan hne hnd ih

theorem delimited_of_noDollar {t : List Char} (h : noDollar t) : Delimited t := by
  induction t with
  | nil => exact Delimited.nil
  | cons c rest ih =>
    obtain ⟨hc, hr⟩ := noDollar_of_cons h
    exact Delimited.chr hc (ih hr)

theorem mem_dropWhile_of_neg {p : Char → Bool} {a : Char} {l : List Char}
    (hm : a ∈ l) (ha : p a = false) : a ∈ l.dropWhile p := by
  induction l with
  | nil => cases hm
  | cons c t ih =>
    by_cases hc : p c
    · rw [List.dropWhile_cons_of_pos hc]
      rcases List.mem_cons.mp hm with he | hm2
      · rw [← he] at hc
        rw [ha] at hc
        cases hc
      · exact ih hm2
    · rw [List.dropWhile_cons_of_neg hc]
      exact hm

theorem mem_trimWs {a : Char} {l : List Char} (hm : a ∈ l) (ha : isWs a = false) :
    a ∈ trimWs l := by
  rw [trimWs, List.mem_reverse]
  apply mem_dropWhile_of_neg _ ha
  rw [List.mem_reverse]
  exact mem_dropWhile_of_neg hm ha

theorem mem_of_mem_trimWs {a : Char} {l : List Char} (hm : a ∈ trimWs l) : a ∈ l := by
  rw [trimWs, List.mem_reverse] at hm
  have h2 := mem_of_mem_dropWhile hm
  rw [List.mem_reverse] at h2
  exact mem_of_mem_dropWhile h2

/-- The callback output for a dollar-free match containing `=` is a fully
delimited block (or the untouched match). -/
theorem eqCallback_delimited {m : List Char} (hm : noDollar m) (heq : '=' ∈ m) :
    Delimited (eqCallback m) := by
  rw [eqCallback, if_neg (by rw [contains_eq_false hm]; exact Bool.false_ne_true)]
  by_cases hop : m.any isOpCh && m.any Char.isDigit
  · rw [if_pos hop]
    have htm : '=' ∈ trimWs m := mem_trimWs heq (by decide)
    exact Delimited.blockSpan (List.ne_nil_of_mem htm)
      (fun hd => hm (mem_of_mem_trimWs hd)) Delimited.nil
  · rw [if_neg hop]
    exact delimited_of_noDollar hm

/-- The equation rule maps dollar-free text to delimited text. -/
theorem eqScan_noDollar_delimited : ∀ s, noDollar s → Delimited (eqScan s) := by
  intro s
  induction s using eqScan.induct with
  | case1 s hf =>
    intro h
    rw [eqScan_none hf]
    exact delimited_of_noDollar h
  | case2 s pre m r hf ih =>
    intro h
    rw [eqScan_some hf]
    have hd := eqFind_decomp s pre m r hf
    rw [hd] at h
    have hpre : noDollar pre := fun hx => h (by simp [List.mem_append]; exact Or.inl hx)
    have hm : noDollar m := fun hx => h (by simp [List.mem_append]; exact Or.inr (Or.inl hx))
    have hr : noDollar r := fun hx => h (by simp [List.mem_append]; exact Or.inr (Or.inr hx))
    obtain ⟨r1, r2, hmeq, -, -, -, -⟩ := eqFind_shape s pre m r hf
    have heqm : '=' ∈ m := by
      rw [hmeq]
      simp
    exact delimited_append (delimited_append (delimited_of_noDollar hpre)
      (eqCallback_delimited hm heqm)) (ih hr)

theorem takeWhile_append_stop {p : Char → Bool} {x : Char} (hp : p x = false)
    (l y : List Char) : (l ++ x :: y).takeWhile p = l.takeWhile p := by
  induction l with
  | nil =>
    rw [List.nil_append, List.takeWhile_cons_of_neg (by simp [hp]), List.takeWhile_nil]
  | cons c t ih =>
    by_cases hc : p c
    · rw [List.cons_append, List.takeWhile_cons_of_pos hc, List.takeWhile_cons_of_pos hc, ih]
    · rw [List.cons_append, List.takeWhile_cons_of_neg hc, List.takeWhile_cons_of_neg hc]

theorem dropWhile_append_stop {p : Char → Bool} {x : Char} (hp : p x = false)
    (l y : List Char) : (l ++ x :: y).dropWhile p = l.dropWhile p ++ x :: y := by
  induction l with
  | nil =>
    rw [List.nil_append, List.dropWhile_cons_of_neg (by simp [hp]), List.dropWhile_nil,
      List.nil_append]
  | cons c t ih =>
    by_cases hc : p c
    · rw [List.cons_append, List.dropWhile_cons_of_pos hc, List.dropWhile_cons_of_pos hc, ih]
    · rw [List.cons_append, List.dropWhile_cons_of_neg hc, List.dropWhile_cons_of_neg hc,
        List.cons_append]

/-- Behaviour of the match finder across a `$`: a match never spans the
`$` (it is not in the class), so the leftmost match of `a ++ $ ++ b` is the
leftmost match of `a` if `a` has one, and otherwise the leftmost match of
`b` shifted past `a ++ $`. -/
theorem eqFind_dollar : ∀ a : List Char,
    (∀ b, eqFind a = none → eqFind (a ++ '$' :: b) =
      (eqFind b).map (fun pr => (a ++ '$' :: pr.1, pr.2.1, pr.2.2))) ∧
    (∀ b pre m r, eqFind a = some (pre, m, r) →
      eqFind (a ++ '$' :: b) = some (pre, m, r ++ '$' :: b)) := by
  intro a
  induction a using eqFind.induct with
  | case1 =>
    constructor
    · intro b h
      rw [List.nil_append, eqFind, if_neg (by decide)]
      simp only [List.nil_append]
    · intro b pre m r h
      simp [eqFind] at h
  | case2 c rest hc heq hemp ih =>
    obtain ⟨s2, hs2⟩ : ∃ s2, rest.dropWhile isEqClassCh = '=' :: s2 :=
      ⟨_, head_some_cons heq⟩
    have hdol : isEqClassCh '$' = false := by decide
    have hemp2 : (s2.takeWhile isEqClassCh).isEmpty = true := by
      rw [hs2, List.tail_cons] at hemp
      exact hemp
    have key : ∀ b, eqFind ((c :: rest) ++ '$' :: b) =
        (eqFind (s2 ++ '$' :: b)).map
          (fun pr => (c :: rest.takeWhile isEqClassCh ++ '=' :: pr.1, pr.2.1, pr.2.2)) := by
      intro b
      rw [List.cons_append, eqFind, if_pos hc]
      rw [dropWhile_append_stop hdol rest b, hs2]
      simp only [List.cons_append, List.head?_cons, List.tail_cons]
      simp only [if_true]
      rw [takeWhile_append_stop hdol s2 b]
      rw [if_pos hemp2]
      rw [takeWhile_append_stop hdol rest b]
    constructor
    · intro b h
      rw [eqFind, if_pos hc, if_pos heq, if_pos hemp] at h
      rw [hs2, List.tail_cons] at h
      have hnone : eqFind s2 = none := by
        rcases ho : eqFind s2 with _ | x
        · rfl
        · rw [ho] at h
          simp at h
      have ih1 := (ih.1 b) ?_
      · rw [key b]
        rw [hs2, List.tail_cons] at ih1
        rw [ih1]
        rcases hb : eqFind b with _ | ⟨⟨p1, m1, r1⟩⟩
        · simp
        · simp only [Option.map_some']
          have comp : (c :: rest) ++ '$' :: p1 =
              c :: rest.takeWhile isEqClassCh ++ '=' :: (s2 ++ '$' :: p1) := by
            rw [List.cons_append, List.cons_append]
            congr 1
            conv_lhs => rw [← takeWhile_dropWhile_eq isEqClassCh rest]
            rw [hs2]
            simp only [List.append_assoc, List.cons_append]
          rw [comp]
      · rw [hs2, List.tail_cons]
        exact hnone
    · intro b pre m r h
      rw [eqFind, if_pos hc, if_pos heq, if_pos hemp] at h
      rw [hs2, List.tail_cons] at h
      rcases ho : eqFind s2 with _ | ⟨⟨p1, m1, r1⟩⟩
      · rw [ho] at h
        simp at h
      · rw [ho] at h
        simp only [Option.map_some', Option.some_inj, Prod.mk.injEq] at h
        obtain ⟨h1, h2, h3⟩ := h
        subst h1
        subst h2
        subst h3
        have ih2 := ih.2 b p1 m1 r1 ?_
        · rw [key b]
          rw [hs2, List.tail_cons] at ih2
          rw [ih2]
          simp only [Option.map_some']
        · rw [hs2, List.tail_cons]
          exact ho
  | case3 c rest hc heq hemp =>
    obtain ⟨s2, hs2⟩ : ∃ s2, rest.dropWhile isEqClassCh = '=' :: s2 :=
      ⟨_, head_some_cons heq⟩
    have hdol : isEqClassCh '$' = false := by decide
    have hemp2 : ¬ (s2.takeWhile isEqClassCh).isEmpty = true := by
      rw [hs2, List.tail_cons] at hemp
      exact hemp
    have key : ∀ b, eqFind ((c :: rest) ++ '$' :: b) =
        some ([], c :: rest.takeWhile isEqClassCh ++ '=' :: s2.takeWhile isEqClassCh,
          s2.dropWhile isEqClassCh ++ '$' :: b) := by
      intro b
      rw [List.cons_append, eqFind, if_pos hc]
      rw [dropWhile_append_stop hdol rest b, hs2]
      simp only [List.cons_append, List.head?_cons, List.tail_cons]
      simp only [if_true]
      rw [takeWhile_append_stop hdol s2 b]
      rw [if_neg hemp2]
      rw [takeWhile_append_stop hdol rest b]
      rw [dropWhile_append_stop hdol s2 b]
    have hfind : eqFind (c :: rest) =
        some ([], c :: rest.takeWhile isEqClassCh ++ '=' :: s2.takeWhile isEqClassCh,
          s2.dropWhile isEqClassCh) := by
      rw [eqFind, if_pos hc, if_pos heq, if_neg hemp]
      rw [hs2, List.tail_cons]
    constructor
    · intro b h
      rw [hfind] at h
      cases h
    · intro b pre m r h
      rw [hfind] at h
      simp only [Option.some_inj, Prod.mk.injEq] at h
      obtain ⟨h1, h2, h3⟩ := h
      subst h1
      subst h2
      subst h3
      exact key b
  | case4 c rest hc hne ih =>
    have hdol : isEqClassCh '$' = false := by decide
    have key : ∀ b, eqFind ((c :: rest) ++ '$' :: b) =
        (eqFind (rest.dropWhile isEqClassCh ++ '$' :: b)).map
          (fun pr => (c :: rest.takeWhile isEqClassCh ++ pr.1, pr.2.1, pr.2.2)) := by
      intro b
      rw [List.cons_append, eqFind, if_pos hc]
      rw [dropWhile_append_stop hdol rest b]
      rw [if_neg ?_]
      · rw [takeWhile_append_stop hdol rest b]
      · cases hdw : rest.dropWhile isEqClassCh with
        | nil =>
          simp
        | cons x xs =>
          simp only [List.cons_append, List.head?_cons]
          intro hcon
          apply hne
          rw [hdw]
          simp only [List.head?_cons]
          exact hcon
    constructor
    · intro b h
      rw [eqFind, if_pos hc, if_neg hne] at h
      have hnone : eqFind (rest.dropWhile isEqClassCh) = none := by
        rcases ho : eqFind (rest.dropWhile isEqClassCh) with _ | x
        · rfl
        · rw [ho] at h
          simp at h
      rw [key b, ih.1 b hnone]
      rcases hb : eqFind b with _ | ⟨⟨p1, m1, r1⟩⟩
      · simp
      · simp only [Option.map_some']
        have comp : (c :: rest) ++ '$' :: p1 =
            c :: rest.takeWhile isEqClassCh ++ (rest.dropWhile isEqClassCh ++ '$' :: p1) := by
          rw [List.cons_append, List.cons_append]
          congr 1
          conv_lhs => rw [← takeWhile_dropWhile_eq isEqClassCh rest]
          rw [List.append_assoc]
        rw [comp]
    · intro b pre m r h
      rw [eqFind, if_pos hc, if_neg hne] at h
      rcases ho : eqFind (rest.dropWhile isEqClassCh) with _ | ⟨⟨p1, m1, r1⟩⟩
      · rw [ho] at h
        simp at h
      · rw [ho] at h
        simp only [Option.map_some', Option.some_inj, Prod.mk.injEq] at h
        obtain ⟨h1, h2, h3⟩ := h
        subst h1
        subst h2
        subst h3
        rw [key b, ih.2 b p1 m1 r1 ho]
        simp only [Option.map_some']
  | case5 c rest hc ih =>
    have key : ∀ b, eqFind ((c :: rest) ++ '$' :: b) =
        (eqFind (rest ++ '$' :: b)).map (fun pr => (c :: pr.1, pr.2.1, pr.2.2)) := by
      intro b
      rw [List.cons_append, eqFind, if_neg hc]
    constructor
    · intro b h
      rw [eqFind, if_neg hc] at h
      have hnone : eqFind rest = none := by
        rcases ho : eqFind rest with _ | x
        · rfl
        · rw [ho] at h
          simp at h
      rw [key b, ih.1 b hnone]
      rcases hb : eqFind b with _ | ⟨⟨p1, m1, r1⟩⟩
      · simp
      · simp only [Option.map_some']
        rw [List.cons_append]
    · intro b pre m r h
      rw [eqFind, if_neg hc] at h
      rcases ho : eqFind rest with _ | ⟨⟨p1, m1, r1⟩⟩
      · rw [ho] at h
        simp at h
      · rw [ho] at h
        simp only [Option.map_some', Option.some_inj, Prod.mk.injEq] at h
        obtain ⟨h1, h2, h3⟩ := h
        subst h1
        subst h2
        subst h3
        rw [key b, ih.2 b p1 m1 r1 ho]
        simp only [Option.map_some']

/-- Scanning distributes over a `$` separator: since no match crosses a
`$`, replacing on `a ++ $ ++ b` replaces on `a` and on `b` independently. -/
theorem eqScan_dollar_aux : ∀ n : Nat, ∀ a : List Char, a.length ≤ n → ∀ b,
    eqScan (a ++ '$' :: b) = eqScan a ++ '$' :: eqScan b := by
  intro n
  induction n with
  | zero =>
    intro a ha b
    have haz : a = [] := List.eq_nil_of_length_eq_zero (Nat.le_zero.mp ha)
    subst haz
    have h0 : eqFind ([] : List Char) = none := by rw [eqFind]
    rw [List.nil_append, eqScan_none h0, List.nil_append]
    rcases hb : eqFind b with _ | ⟨⟨p, m, r⟩⟩
    · have h1 := (eqFind_dollar ([] : List Char)).1 b h0
      rw [hb] at h1
      simp only [Option.map_none', List.nil_append] at h1
      rw [eqScan_none h1, eqScan_none hb]
    · have h1 := (eqFind_dollar ([] : List Char)).1 b h0
      rw [hb] at h1
      simp only [Option.map_some', List.nil_append] at h1
      rw [eqScan_some h1, eqScan_some hb]
      simp only [List.cons_append, List.append_assoc]
  | succ n ih =>
    intro a ha b
    rcases ho : eqFind a with _ | ⟨⟨p, m, r⟩⟩
    · rw [eqScan_none ho]
      rcases hb : eqFind b with _ | ⟨⟨p1, m1, r1⟩⟩
      · have h1 := (eqFind_dollar a).1 b ho
        rw [hb] at h1
        simp only [Option.map_none'] at h1
        rw [eqScan_none h1, eqScan_none hb]
      · have h1 := (eqFind_dollar a).1 b ho
        rw [hb] at h1
        simp only [Option.map_some'] at h1
        rw [eqScan_some h1, eqScan_some hb]
        simp only [List.cons_append, List.append_assoc]
    · have h2 := (eqFind_dollar a).2 b p m r ho
      rw [eqScan_some h2, eqScan_some ho]
      have hlt := eqFind_rest_lt a p m r ho
      rw [ih r (by omega) b]
      simp only [List.cons_append, List.append_assoc]

theorem eqScan_dollar_append (a b : List Char) :
    eqScan (a ++ '$' :: b) = eqScan a ++ '$' :: eqScan b :=
  eqScan_dollar_aux a.length a (le_refl _) b

/-- A string without `=` has no equation match. -/
theorem eqFind_none_of_no_eq : ∀ s : List Char, '=' ∉ s → eqFind s = none := by
  intro s
  induction s using eqFind.induct with
  | case1 =>
    intro h
    rw [eqFind]
  | case2 c rest hc heq hemp ih =>
    intro h
    exfalso
    apply h
    apply List.mem_cons_of_mem
    apply mem_of_mem_dropWhile (p := isEqClassCh)
    rw [head_some_cons heq]
    exact List.mem_cons_self _ _
  | case3 c rest hc heq hemp =>
    intro h
    exfalso
    apply h
    apply List.mem_cons_of_mem
    apply mem_of_mem_dropWhile (p := isEqClassCh)
    rw [head_some_cons heq]
    exact List.mem_cons_self _ _
  | case4 c rest hc hne ih =>
    intro h
    have hrest : '=' ∉ rest.dropWhile isEqClassCh := by
      intro hm
      exact h (List.mem_cons_of_mem _ (mem_of_mem_dropWhile hm))
    rw [eqFind, if_pos hc, if_neg hne, ih hrest, Option.map_none']
  | case5 c rest hc ih =>
    intro h
    have hrest : '=' ∉ rest := by
      intro hm
      exact h (List.mem_cons_of_mem _ hm)
    rw [eqFind, if_neg hc, ih hrest, Option.map_none']

theorem eqScan_id_of_no_eq {s : List Char} (h : '=' ∉ s) : eqScan s = s :=
  eqScan_none (eqFind_none_of_no_eq s h)

/-! ### Strings interleaving plain text with well-formed inline spans -/

/-- A command string that may sit between single dollars: nonempty, free of
`$` and `=`, and free of every key in `keys` (replacement keys of passes
still to run, so later passes leave the command alone). -/
abbrev CmdOk (keys : List Char) (cmd : List Char) : Prop :=
  cmd ≠ [] ∧ '$' ∉ cmd ∧ '=' ∉ cmd ∧ ∀ k ∈ keys, k ∉ cmd

/-- Strings that are an alternation of dollar-free text and `$cmd$` spans
whose commands satisfy `P`. -/
inductive SpanMix (P : List Char → Prop) : List Char → Prop
  | plain {t : List Char} : noDollar t → SpanMix P t
  | span {t cmd rest : List Char} : noDollar t → P cmd → SpanMix P rest →
      SpanMix P (t ++ '$' :: cmd ++ '$' :: rest)

theorem spanMix_mono {P Q : List Char → Prop} (h : ∀ c, P c → Q c) :
    ∀ {s : List Char}, SpanMix P s → SpanMix Q s := by
  intro s hs
  induction hs with
  | plain ht => exact SpanMix.plain ht
  | span ht hc _ ih => exact SpanMix.span ht (h _ hc) ih

theorem spanMix_append_left {P : List Char → Prop} {a : List Char} (ha : noDollar a) :
    ∀ {b : List Char}, SpanMix P b → SpanMix P (a ++ b) := by
  intro b hb
  induction hb with
  | plain ht => exact SpanMix.plain (noDollar_append ha ht)
  | @span t cmd rest ht hc hr ih =>
    have he : a ++ ((t ++ '$' :: cmd) ++ '$' :: rest) =
        ((a ++ t) ++ '$' :: cmd) ++ '$' :: rest := by
      simp [List.append_assoc]
    rw [he]
    exact SpanMix.span (noDollar_append ha ht) hc hr

theorem spanMix_append {P : List Char → Prop} {a b : List Char}
    (ha : SpanMix P a) (hb : SpanMix P b) : SpanMix P (a ++ b) := by
  induction ha with
  | plain ht => exact spanMix_append_left ht hb
  | @span t cmd rest ht hc hr ih =>
    have he : ((t ++ '$' :: cmd) ++ '$' :: rest) ++ b =
        (t ++ '$' :: cmd) ++ '$' :: (rest ++ b) := by
      simp [List.append_assoc]
    rw [he]
    exact SpanMix.span ht hc ih

theorem noDollar_nil : noDollar ([] : List Char) := by
  intro hm
  cases hm

/-- Replacing a non-dollar key by `$cmd$` inside dollar-free text yields a
well-formed alternation. -/
theorem replaceChar_noDollar_spanMix {Q : List Char → Prop} {k : Char} {v : List Char}
    (hk : k ≠ '$') (hQv : Q v) :
    ∀ {t : List Char}, noDollar t → SpanMix Q (replaceChar k ('$' :: v ++ ['$']) t) := by
  intro t
  induction t with
  | nil =>
    intro ht
    exact SpanMix.plain noDollar_nil
  | cons c rest ih =>
    intro ht
    have hcne : c ≠ '$' := by
      intro he
      exact ht (he ▸ List.mem_cons_self _ _)
    have hrest : noDollar rest := by
      intro hm
      exact ht (List.mem_cons_of_mem _ hm)
    rw [replaceChar]
    by_cases hck : c = k
    · rw [if_pos hck]
      have he : ('$' :: v ++ ['$']) ++ replaceChar k ('$' :: v ++ ['$']) rest =
          ([] ++ '$' :: v) ++ '$' :: replaceChar k ('$' :: v ++ ['$']) rest := by
        simp [List.append_assoc]
      rw [he]
      exact SpanMix.span noDollar_nil hQv (ih hrest)
    · rw [if_neg hck, List.singleton_append]
      exact spanMix_append_left (noDollar_singleton hcne) (ih hrest)

/-- Replacing a key that is absent from every command of a well-formed
alternation keeps it well formed (with the new command admitted). -/
theorem replaceChar_spanMix {P Q : List Char → Prop} {k : Char} {v : List Char}
    (hk : k ≠ '$') (hQv : Q v) (hPQ : ∀ c, P c → Q c) (hPk : ∀ c, P c → k ∉ c) :
    ∀ {s : List Char}, SpanMix P s → SpanMix Q (replaceChar k ('$' :: v ++ ['$']) s) := by
  intro s h
  have hdc : ∀ x, replaceChar k ('$' :: v ++ ['$']) ('$' :: x) =
      '$' :: replaceChar k ('$' :: v ++ ['$']) x := by
    intro x
    rw [replaceChar, if_neg (fun he => hk he.symm), List.singleton_append]
  induction h with
  | plain ht => exact replaceChar_noDollar_spanMix hk hQv ht
  | @span t cmd rest ht hc hr ih =>
    rw [replaceChar_append, replaceChar_append, hdc cmd, hdc rest]
    rw [replaceChar_of_not_mem (hPk cmd hc) _]
    rw [List.append_assoc]
    refine spanMix_append (replaceChar_noDollar_spanMix hk hQv ht) ?_
    have hsp := SpanMix.span (t := ([] : List Char)) noDollar_nil (hPQ cmd hc) ih
    simpa using hsp

/-- Decidable well-formedness of a replacement table: each key differs from
`$`, and each command avoids `$`, `=`, the keys of the later entries and
the keys in `extra`. -/
def tableOkB (extra : List Char) : List (Char × List Char) → Bool
  | [] => true
  | e :: t => (decide (e.1 ≠ '$') && decide (CmdOk (t.map Prod.fst ++ extra) e.2))
      && tableOkB extra t

theorem applyTable_spanMix : ∀ (l : List (Char × List Char)) (extra : List Char),
    tableOkB extra l = true →
    ∀ s, SpanMix (CmdOk (l.map Prod.fst ++ extra)) s →
    SpanMix (CmdOk extra) (applyTable l s) := by
  intro l
  induction l with
  | nil =>
    intro extra hok s hs
    exact hs
  | cons e t ih =>
    intro extra hok s hs
    simp only [tableOkB, Bool.and_eq_true, decide_eq_true_eq] at hok
    obtain ⟨⟨hk, hv⟩, ht⟩ := hok
    have step : applyTable (e :: t) s =
        applyTable t (replaceChar e.1 ('$' :: e.2 ++ ['$']) s) := by
      rw [applyTable, applyTable, List.foldl_cons]
    rw [step]
    apply ih extra ht
    refine replaceChar_spanMix hk hv (fun c hc => ?_) (fun c hc => hc.2.2.2 e.1 (by simp)) hs
    obtain ⟨h1, h2, h3, h4⟩ := hc
    refine ⟨h1, h2, h3, fun k hkm => h4 k ?_⟩
    simp only [List.map_cons, List.cons_append]
    exact List.mem_cons_of_mem _ hkm

/-- Scanning a well-formed alternation yields balanced delimiters: each
span is preserved verbatim (its command has no `=`, hence no match), and
the plain parts scan to `Delimited` strings. -/
theorem eqScan_spanMix_delimited : ∀ {s : List Char},
    SpanMix (CmdOk []) s → Delimited (eqScan s) := by
  intro s h
  induction h with
  | plain ht => exact eqScan_noDollar_delimited _ ht
  | @span t cmd rest ht hc hr ih =>
    rw [eqScan_dollar_append, eqScan_dollar_append]
    rw [eqScan_id_of_no_eq hc.2.2.1]
    rw [List.append_assoc]
    exact delimited_append (eqScan_noDollar_delimited _ ht)
      (Delimited.inlineSpan hc.1 hc.2.1 ih)

/-- A `Delimited` string holds an even number of dollar signs. -/
theorem delimited_count_dollar : ∀ {s : List Char}, Delimited s →
    s.count '$' % 2 = 0 := by
  intro s h
  induction h with
  | nil => rfl
  | @chr c rest hc _ ih =>
    have hcc : (c :: rest).count '$' = rest.count '$' := by
      simp [List.count_cons, hc, Ne.symm hc]
    rw [hcc]
    exact ih
  | @inlineSpan co rest hne hnd _ ih =>
    have hco : co.count '$' = 0 := List.count_eq_zero.mpr hnd
    simp only [List.cons_append, List.count_append, List.count_cons, hco,
      beq_self_eq_true, if_true]
    omega
  | @blockSpan co rest hne hnd _ ih =>
    have hco : co.count '$' = 0 := List.count_eq_zero.mpr hnd
    simp only [List.cons_append, List.count_append, List.count_cons, hco,
      beq_self_eq_true, if_true]
    omega

/-- C7 (amended): for every input string containing no `$`, the output of
`detectMathPatterns` has balanced, non-nested math delimiters: it is an
alternation of dollar-free text, `$cmd$` inline spans and `$$body$$` block
spans (`Delimited`). On inputs already containing `$` the invariant can
fail, see the counterexample. -/
theorem claimC7 (s : List Char) (h : noDollar s) :
    Delimited (detectMathPatterns s) := by
  have h1 := fracScan_noDollar s h
  have h2 := expScan_noDollar _ h1
  have h3 : noDollar (expBrace (expScan (fracScan s))) := by
    rw [expBrace_id]
    exact h2
  have h4 := sqrtParenScan_noDollar _ h3
  have h5 := sqrtNumScan_noDollar _ h4
  have hg := applyTable_spanMix greekLetters (mathOperators.map Prod.fst) (by decide)
    _ (SpanMix.plain h5)
  have hmono : ∀ c, CmdOk (mathOperators.map Prod.fst) c →
      CmdOk (mathOperators.map Prod.fst ++ []) c := by
    intro c hc
    rw [List.append_nil]
    exact hc
  have ho := applyTable_spanMix mathOperators [] (by decide) _ (spanMix_mono hmono hg)
  show Delimited (eqScan (operatorRule (greekRule
    (sqrtNumScan (sqrtParenScan (expBrace (expScan (fracScan s))))))))
  exact eqScan_spanMix_delimited ho

/-- Counterexample to the original C7: the input consisting of the single
character `$` is left unchanged by every rule, and the output has an odd
number of dollar signs, so its delimiters cannot pair up. -/
theorem claimC7_counterexample :
    detectMathPatterns ['$'] = ['$'] ∧ ¬ Delimited ['$'] := by
  constructor
  · rw [← detectMathPatternsEv_eq]
    decide
  · intro hd
    have hc := delimited_count_dollar hd
    rw [show (['$'] : List Char).count '$' = 1 from rfl] at hc
    omega

/-- Witness for `claimC7` at the concrete dollar-free input `"α = 2"`. -/
theorem claimC7_witness :
    noDollar "α = 2".data ∧ Delimited (detectMathPatterns "α = 2".data) :=
  ⟨by simp only [noDollar]; decide, claimC7 _ (by simp only [noDollar]; decide)⟩

end MathOcr
